import Mathlib

/-!
Verification of the Auriga terminal text editor.

The repository ships a single C program (the line-by-line commented source
embedded in `src/README.md`, of which `src/editor.c` is an earlier, reduced
variant).  This file gives a shallow embedding of its data model and of the
operations relevant to the frozen claims:

* the `Buffer` structure (array of lines plus an array of cached lengths and a
  line count), and the mutation operations `buffer_insert_line`,
  `buffer_insert_char`, `buffer_delete_char`, `buffer_split_line`,
  `buffer_join_with_prev`, `buffer_append_empty`, plus the load path of
  `editor_open`;
* the `View` structure and `editor_scroll`;
* the full editor state (`EState`) with the search bookkeeping, the highlight
  span, the dirty flag and the quit-confirmation counter, and on top of it the
  editing/motion operations, the search engine (`editor_find_next`,
  `editor_find`), the key decoder (`editor_read_key`) and the main-loop
  dispatch;
* the atomic save protocol `editor_save_atomic` over an abstract two-slot file
  system (target file and its `.tmp` sibling) together with an explicit
  fault schedule for the open/write/fsync/close/rename system calls.

Machine integers of the C program are modelled as `Nat` where the program
keeps them non-negative (lengths, counts, cursor and scroll coordinates;
the C clamps such as `if (x < 0) x = 0` coincide with truncated `Nat`
subtraction and are noted where they occur) and as `Int` where a negative
sentinel value `-1` is actually stored (search match bookkeeping and the
highlight span).  All values stay far below 2^31, so overflow is not a
concern.  The byte moves of the C code operate on the cached lengths; the
definitions below do the same, reading `Buffer.len` exactly where the source
reads `b->len[...]`.
-/

namespace Auriga

/-! ### List index helpers

Small self-contained helpers mirroring the C `memmove` shifts: insertion at an
index and removal of an index. -/

def insertAt : Nat → α → List α → List α
  | 0, x, l => x :: l
  | _ + 1, x, [] => [x]
  | n + 1, x, a :: l => a :: insertAt n x l

def eraseAt : Nat → List α → List α
  | _, [] => []
  | 0, _ :: l => l
  | n + 1, a :: l => a :: eraseAt n l

theorem length_insertAt (x : α) : ∀ (n : Nat) (l : List α), n ≤ l.length →
    (insertAt n x l).length = l.length + 1
  | 0, l, _ => by simp [insertAt]
  | n + 1, [], h => by simp at h
  | n + 1, a :: l, h => by
    simp only [insertAt, List.length_cons]
    rw [length_insertAt x n l (by simpa using h)]

theorem getD_insertAt_lt (x d : α) : ∀ (n : Nat) (l : List α) (j : Nat), j < n →
    n ≤ l.length → (insertAt n x l).getD j d = l.getD j d
  | 0, _, j, h, _ => by omega
  | n + 1, [], j, _, hn => by simp at hn
  | n + 1, a :: l, 0, _, _ => by simp [insertAt]
  | n + 1, a :: l, j + 1, h, hn => by
    simpa [insertAt] using getD_insertAt_lt x d n l j (by omega) (by simpa using hn)

theorem getD_insertAt_self (x d : α) : ∀ (n : Nat) (l : List α), n ≤ l.length →
    (insertAt n x l).getD n d = x
  | 0, l, _ => by simp [insertAt]
  | n + 1, [], h => by simp at h
  | n + 1, a :: l, h => by
    simpa [insertAt] using getD_insertAt_self x d n l (by simpa using h)

theorem getD_insertAt_gt (x d : α) : ∀ (n : Nat) (l : List α) (j : Nat), n < j →
    (insertAt n x l).getD j d = l.getD (j - 1) d
  | 0, l, j + 1, _ => by simp [insertAt]
  | n + 1, [], j + 1, h => by
    cases j with
    | zero => omega
    | succ j => simp [insertAt, List.getD]
  | n + 1, a :: l, j + 1, h => by
    cases j with
    | zero => omega
    | succ j =>
      have := getD_insertAt_gt x d n l (j + 1) (by omega)
      simpa [insertAt] using this

theorem length_eraseAt : ∀ (n : Nat) (l : List α), n < l.length →
    (eraseAt n l).length = l.length - 1
  | _, [], h => by simp at h
  | 0, a :: l, _ => by simp [eraseAt]
  | n + 1, a :: l, h => by
    have hn : n < l.length := by simpa using h
    simp only [eraseAt, List.length_cons]
    rw [length_eraseAt n l hn]
    omega

theorem getD_eraseAt_lt (d : α) : ∀ (n : Nat) (l : List α) (j : Nat), j < n →
    (eraseAt n l).getD j d = l.getD j d
  | _, [], _, _ => by simp [eraseAt]
  | 0, a :: l, j, h => by omega
  | n + 1, a :: l, 0, _ => by simp [eraseAt]
  | n + 1, a :: l, j + 1, h => by
    simpa [eraseAt] using getD_eraseAt_lt d n l j (by omega)

theorem getD_eraseAt_ge (d : α) : ∀ (n : Nat) (l : List α) (j : Nat), n ≤ j →
    (eraseAt n l).getD j d = l.getD (j + 1) d
  | _, [], _, _ => by simp [eraseAt, List.getD]
  | 0, a :: l, j, _ => by simp [eraseAt]
  | n + 1, a :: l, 0, h => by omega
  | n + 1, a :: l, j + 1, h => by
    simpa [eraseAt] using getD_eraseAt_ge d n l j (by omega)

theorem getD_set_self (x d : α) : ∀ (l : List α) (i : Nat), i < l.length →
    (l.set i x).getD i d = x
  | [], _, h => by simp at h
  | a :: l, 0, _ => by simp
  | a :: l, i + 1, h => by
    simpa using getD_set_self x d l i (by simpa using h)

theorem getD_set_ne (x d : α) : ∀ (l : List α) (i j : Nat), i ≠ j →
    (l.set i x).getD j d = l.getD j d
  | [], _, _, _ => by simp
  | a :: l, 0, 0, h => by omega
  | a :: l, 0, j + 1, _ => by simp
  | a :: l, i + 1, 0, _ => by simp
  | a :: l, i + 1, j + 1, h => by
    simpa using getD_set_ne x d l i j (by omega)

/-- Two lists are equal when they have the same length and agree on `getD` at
every in-range index (in-range `getD` ignores the default). -/
theorem list_ext_getD (d : α) : ∀ (l₁ l₂ : List α), l₁.length = l₂.length →
    (∀ j, j < l₁.length → l₁.getD j d = l₂.getD j d) → l₁ = l₂
  | [], [], _, _ => rfl
  | [], _ :: _, h, _ => by simp at h
  | _ :: _, [], h, _ => by simp at h
  | a :: l₁, b :: l₂, h, hj => by
    have h0 := hj 0 (by simp)
    simp only [List.getD_cons_zero] at h0
    subst h0
    have := list_ext_getD d l₁ l₂ (by simpa using h)
      (fun j hjl => by simpa using hj (j + 1) (by simpa using hjl))
    rw [this]

/-! ### The text buffer

`Buffer` mirrors the C struct: an array of lines, an array of cached lengths
and the number of lines in use (the `cap` field only governs `realloc` calls
and has no observable effect, so it is dropped).  A line is the byte content
up to (excluding) the terminating NUL. -/

structure Buffer where
  lines : List (List Char)
  len : List Nat
  count : Nat
deriving Repr, DecidableEq

/-- `buffer_init`: one empty line. -/
def buffer_init : Buffer := ⟨[[]], [0], 1⟩

/-- `buffer_insert_line`: insert a copy of the byte span `s` at index `i`,
shifting later lines down; out-of-range `i` is a no-op.  (The C function does
not touch the dirty flag.) -/
def buffer_insert_line (b : Buffer) (i : Nat) (s : List Char) : Buffer :=
  if i > b.count then b
  else ⟨insertAt i s b.lines, insertAt i s.length b.len, b.count + 1⟩

/-- `buffer_append_empty`: append an empty line at the bottom. -/
def buffer_append_empty (b : Buffer) : Buffer :=
  buffer_insert_line b b.count []

/-- `buffer_insert_char`: insert `ch` at `(row, col)`, clamping `col` into
`[0, len[row]]`, and set the dirty flag.  The C shifts `len[row] - col + 1`
bytes; on the actual line content that is the split at `col` below. -/
def buffer_insert_char (b : Buffer) (dirty : Bool) (row col : Nat) (ch : Char) :
    Buffer × Bool :=
  let L := b.len.getD row 0
  let col := min col L
  let s := b.lines.getD row []
  (⟨b.lines.set row (s.take col ++ ch :: s.drop col), b.len.set row (L + 1), b.count⟩,
   true)

/-- `buffer_delete_char`: delete the byte before `col` (backspace semantics);
no-op when `col = 0` or `col > len[row]`, otherwise sets the dirty flag. -/
def buffer_delete_char (b : Buffer) (dirty : Bool) (row col : Nat) : Buffer × Bool :=
  let L := b.len.getD row 0
  if col = 0 ∨ col > L then (b, dirty)
  else
    let s := b.lines.getD row []
    (⟨b.lines.set row (s.take (col - 1) ++ s.drop col), b.len.set row (L - 1), b.count⟩,
     true)

/-- `buffer_split_line`: clamp `col`, insert the right part
(`len[row] - col` bytes starting at `col`) as a new line at `row + 1`, then
truncate line `row` to length `col`; sets the dirty flag. -/
def buffer_split_line (b : Buffer) (dirty : Bool) (row col : Nat) : Buffer × Bool :=
  let L := b.len.getD row 0
  let col := min col L
  let s := b.lines.getD row []
  let right := (s.drop col).take (L - col)
  let b1 := buffer_insert_line b (row + 1) right
  (⟨b1.lines.set row (s.take col), b1.len.set row col, b1.count⟩, true)

/-- `buffer_join_with_prev`: no-op unless `0 < row < count`; append the
`len[row]` bytes of line `row` to the `len[row-1]` bytes of line `row - 1`,
remove line `row`, and set the dirty flag. -/
def buffer_join_with_prev (b : Buffer) (dirty : Bool) (row : Nat) : Buffer × Bool :=
  if row = 0 ∨ row ≥ b.count then (b, dirty)
  else
    let Lp := b.len.getD (row - 1) 0
    let Lc := b.len.getD row 0
    let prev := b.lines.getD (row - 1) []
    let cur := b.lines.getD row []
    (⟨eraseAt row (b.lines.set (row - 1) (prev.take Lp ++ cur.take Lc)),
      eraseAt row (b.len.set (row - 1) (Lp + Lc)),
      b.count - 1⟩,
     true)

/-- The buffer produced by `editor_open` when the file exists and its content,
split at newlines with trailing `\r`/`\n` stripped, is `ls`.  The first
physical line replaces the initial empty line of the freshly initialised
buffer; the remaining lines are appended with `buffer_insert_line`.  An empty
file leaves the single empty line. -/
def editor_open_lines (ls : List (List Char)) : Buffer :=
  match ls with
  | [] => buffer_init
  | l :: rest => rest.foldl (fun b s => buffer_insert_line b b.count s) ⟨[l], [l.length], 1⟩

/-! ### The buffer invariant (claim C2) -/

/-- Well-formedness of a buffer: at least one line, the two arrays track the
line count, and every cached length equals the actual content length. -/
def WFb (b : Buffer) : Prop :=
  1 ≤ b.count ∧ b.lines.length = b.count ∧ b.len.length = b.count ∧
    ∀ i, i < b.count → b.len.getD i 0 = (b.lines.getD i []).length

instance : DecidablePred WFb := fun b => by
  unfold WFb
  have : (∀ i, i < b.count → b.len.getD i 0 = (b.lines.getD i []).length) ↔
      (∀ i, ∀ _ : i < b.count, b.len.getD i 0 = (b.lines.getD i []).length) := Iff.rfl
  exact instDecidableAnd

theorem WFb_buffer_init : WFb buffer_init := by decide

theorem WFb_insert_line (b : Buffer) (hb : WFb b) (i : Nat) (s : List Char) :
    WFb (buffer_insert_line b i s) := by
  obtain ⟨h1, h2, h3, h4⟩ := hb
  by_cases hg : i > b.count
  · simpa [buffer_insert_line, hg] using ⟨h1, h2, h3, h4⟩
  · have hi : i ≤ b.count := by omega
    simp only [buffer_insert_line, hg, if_false]
    refine ⟨?_, ?_, ?_, ?_⟩
    · show 1 ≤ b.count + 1
      omega
    · show (insertAt i s b.lines).length = b.count + 1
      rw [length_insertAt s i b.lines (by omega)]
      omega
    · show (insertAt i s.length b.len).length = b.count + 1
      rw [length_insertAt s.length i b.len (by omega)]
      omega
    · intro j hj
      show (insertAt i s.length b.len).getD j 0 =
        ((insertAt i s b.lines).getD j []).length
      have hj' : j < b.count + 1 := hj
      rcases Nat.lt_trichotomy j i with hlt | heq | hgt
      · rw [getD_insertAt_lt _ _ i b.len j hlt (by omega),
          getD_insertAt_lt _ _ i b.lines j hlt (by omega)]
        exact h4 j (by omega)
      · subst heq
        rw [getD_insertAt_self s.length 0 j b.len (by omega),
          getD_insertAt_self s [] j b.lines (by omega)]
      · rw [getD_insertAt_gt s.length 0 i b.len j hgt,
          getD_insertAt_gt s [] i b.lines j hgt]
        exact h4 (j - 1) (by omega)

theorem WFb_insert_char (b : Buffer) (d : Bool) (hb : WFb b) (row col : Nat) (ch : Char)
    (hrow : row < b.count) : WFb (buffer_insert_char b d row col ch).1 := by
  obtain ⟨h1, h2, h3, h4⟩ := hb
  have hL : b.len.getD row 0 = (b.lines.getD row []).length := h4 row hrow
  simp only [buffer_insert_char]
  set L := b.len.getD row 0 with hLdef
  set s := b.lines.getD row [] with hsdef
  refine ⟨h1, ?_, ?_, ?_⟩
  · show (b.lines.set row _).length = b.count
    simpa using h2
  · show (b.len.set row (L + 1)).length = b.count
    simpa using h3
  · intro j hj
    by_cases heq : row = j
    · subst heq
      show (b.len.set row (L + 1)).getD row 0 =
        ((b.lines.set row (s.take (min col L) ++ ch :: s.drop (min col L))).getD row []).length
      rw [getD_set_self _ 0 b.len row (by omega), getD_set_self _ [] b.lines row (by omega)]
      simp only [List.length_append, List.length_cons, List.length_take, List.length_drop]
      omega
    · show (b.len.set row (L + 1)).getD j 0 =
        ((b.lines.set row (s.take (min col L) ++ ch :: s.drop (min col L))).getD j []).length
      rw [getD_set_ne _ 0 b.len row j heq, getD_set_ne _ [] b.lines row j heq]
      exact h4 j hj

theorem WFb_delete_char (b : Buffer) (d : Bool) (hb : WFb b) (row col : Nat)
    (hrow : row < b.count) : WFb (buffer_delete_char b d row col).1 := by
  obtain ⟨h1, h2, h3, h4⟩ := hb
  have hL : b.len.getD row 0 = (b.lines.getD row []).length := h4 row hrow
  simp only [buffer_delete_char]
  set L := b.len.getD row 0 with hLdef
  set s := b.lines.getD row [] with hsdef
  by_cases hg : col = 0 ∨ col > L
  · simp only [if_pos hg]
    exact ⟨h1, h2, h3, h4⟩
  · simp only [if_neg hg]
    push_neg at hg
    refine ⟨h1, ?_, ?_, ?_⟩
    · show (b.lines.set row _).length = b.count
      simpa using h2
    · show (b.len.set row (L - 1)).length = b.count
      simpa using h3
    · intro j hj
      by_cases heq : row = j
      · subst heq
        show (b.len.set row (L - 1)).getD row 0 =
          ((b.lines.set row (s.take (col - 1) ++ s.drop col)).getD row []).length
        rw [getD_set_self _ 0 b.len row (by omega), getD_set_self _ [] b.lines row (by omega)]
        simp only [List.length_append, List.length_take, List.length_drop]
        omega
      · show (b.len.set row (L - 1)).getD j 0 =
          ((b.lines.set row (s.take (col - 1) ++ s.drop col)).getD j []).length
        rw [getD_set_ne _ 0 b.len row j heq, getD_set_ne _ [] b.lines row j heq]
        exact h4 j hj

theorem WFb_split_line (b : Buffer) (d : Bool) (hb : WFb b) (row col : Nat)
    (hrow : row < b.count) : WFb (buffer_split_line b d row col).1 := by
  obtain ⟨h1, h2, h3, h4⟩ := hb
  have hL : b.len.getD row 0 = (b.lines.getD row []).length := h4 row hrow
  simp only [buffer_split_line]
  set L := b.len.getD row 0 with hLdef
  set s := b.lines.getD row [] with hsdef
  set right := (s.drop (min col L)).take (L - min col L) with hrdef
  have hb1 : WFb (buffer_insert_line b (row + 1) right) :=
    WFb_insert_line b ⟨h1, h2, h3, h4⟩ (row + 1) right
  obtain ⟨g1, g2, g3, g4⟩ := hb1
  have hcount1 : (buffer_insert_line b (row + 1) right).count = b.count + 1 := by
    have hgt : ¬ (row + 1 > b.count) := by omega
    simp [buffer_insert_line, hgt]
  set b1 := buffer_insert_line b (row + 1) right with hb1def
  refine ⟨?_, ?_, ?_, ?_⟩
  · show 1 ≤ b1.count
    omega
  · show (b1.lines.set row _).length = b1.count
    simpa using g2
  · show (b1.len.set row (min col L)).length = b1.count
    simpa using g3
  · intro j hj
    by_cases heq : row = j
    · subst heq
      show (b1.len.set row (min col L)).getD row 0 =
        ((b1.lines.set row (s.take (min col L))).getD row []).length
      rw [getD_set_self _ 0 b1.len row (by omega), getD_set_self _ [] b1.lines row (by omega)]
      simp only [List.length_take]
      omega
    · show (b1.len.set row (min col L)).getD j 0 =
        ((b1.lines.set row (s.take (min col L))).getD j []).length
      rw [getD_set_ne _ 0 b1.len row j heq, getD_set_ne _ [] b1.lines row j heq]
      exact g4 j hj

theorem WFb_join_with_prev (b : Buffer) (d : Bool) (hb : WFb b) (row : Nat) :
    WFb (buffer_join_with_prev b d row).1 := by
  obtain ⟨h1, h2, h3, h4⟩ := hb
  simp only [buffer_join_with_prev]
  by_cases hg : row = 0 ∨ row ≥ b.count
  · simp only [if_pos hg]
    exact ⟨h1, h2, h3, h4⟩
  · simp only [if_neg hg]
    push_neg at hg
    obtain ⟨hr0, hrc⟩ := hg
    have hLp : b.len.getD (row - 1) 0 = (b.lines.getD (row - 1) []).length :=
      h4 (row - 1) (by omega)
    have hLc : b.len.getD row 0 = (b.lines.getD row []).length := h4 row hrc
    set Lp := b.len.getD (row - 1) 0 with hLpdef
    set Lc := b.len.getD row 0 with hLcdef
    set prev := b.lines.getD (row - 1) [] with hprevdef
    set cur := b.lines.getD row [] with hcurdef
    have hne : row - 1 ≠ row := by omega
    refine ⟨?_, ?_, ?_, ?_⟩
    · show 1 ≤ b.count - 1
      omega
    · show (eraseAt row (b.lines.set (row - 1) (prev.take Lp ++ cur.take Lc))).length =
        b.count - 1
      rw [length_eraseAt row _ (by rw [List.length_set]; omega), List.length_set]
      omega
    · show (eraseAt row (b.len.set (row - 1) (Lp + Lc))).length = b.count - 1
      rw [length_eraseAt row _ (by rw [List.length_set]; omega), List.length_set]
      omega
    · intro j hj
      have hj' : j < b.count - 1 := hj
      show (eraseAt row (b.len.set (row - 1) (Lp + Lc))).getD j 0 =
        ((eraseAt row (b.lines.set (row - 1) (prev.take Lp ++ cur.take Lc))).getD j []).length
      rcases Nat.lt_trichotomy j (row - 1) with hlt | heq | hgt
      · rw [getD_eraseAt_lt _ row _ j (by omega), getD_eraseAt_lt _ row _ j (by omega),
          getD_set_ne _ _ _ _ _ (by omega), getD_set_ne _ _ _ _ _ (by omega)]
        exact h4 j (by omega)
      · rw [getD_eraseAt_lt _ row _ j (by omega), getD_eraseAt_lt _ row _ j (by omega), heq,
          getD_set_self _ _ _ _ (by omega), getD_set_self _ _ _ _ (by omega)]
        simp only [List.length_append, List.length_take]
        omega
      · rw [getD_eraseAt_ge _ row _ j (by omega), getD_eraseAt_ge _ row _ j (by omega),
          getD_set_ne _ _ _ _ _ (by omega), getD_set_ne _ _ _ _ _ (by omega)]
        exact h4 (j + 1) (by omega)

theorem WFb_append_empty (b : Buffer) (hb : WFb b) : WFb (buffer_append_empty b) :=
  WFb_insert_line b hb b.count []

theorem WFb_editor_open_lines (ls : List (List Char)) : WFb (editor_open_lines ls) := by
  match ls with
  | [] => exact WFb_buffer_init
  | l :: rest =>
    simp only [editor_open_lines]
    have base : WFb ⟨[l], [l.length], 1⟩ := by
      refine ⟨by simp, by simp, by simp, ?_⟩
      intro i hi
      have hi' : i < 1 := hi
      have : i = 0 := by omega
      subst this
      simp
    generalize hB : (⟨[l], [l.length], 1⟩ : Buffer) = B at base
    clear hB
    induction rest generalizing B with
    | nil => simpa using base
    | cons s rest ih =>
      simp only [List.foldl_cons]
      exact ih _ (WFb_insert_line B base B.count s)

/-- Reachability of a buffer state from `buffer_init` by the buffer operations
with in-range rows (the v0.3 character-level operations perform no row bounds
check; per the spec, callers always supply a row validated against the view,
so the step relation covers exactly the defined behaviours). -/
inductive ReachBuf : Buffer → Prop where
  | init : ReachBuf buffer_init
  | insert_line (b : Buffer) (i : Nat) (s : List Char) :
      ReachBuf b → ReachBuf (buffer_insert_line b i s)
  | insert_char (b : Buffer) (d : Bool) (row col : Nat) (ch : Char) :
      ReachBuf b → row < b.count → ReachBuf (buffer_insert_char b d row col ch).1
  | delete_char (b : Buffer) (d : Bool) (row col : Nat) :
      ReachBuf b → row < b.count → ReachBuf (buffer_delete_char b d row col).1
  | split_line (b : Buffer) (d : Bool) (row col : Nat) :
      ReachBuf b → row < b.count → ReachBuf (buffer_split_line b d row col).1
  | join_prev (b : Buffer) (d : Bool) (row : Nat) :
      ReachBuf b → ReachBuf (buffer_join_with_prev b d row).1
  | load (b : Buffer) (ls : List (List Char)) :
      ReachBuf b → ReachBuf (editor_open_lines ls)

theorem WFb_of_ReachBuf (b : Buffer) (h : ReachBuf b) : WFb b := by
  induction h with
  | init => exact WFb_buffer_init
  | insert_line b i s _ ih => exact WFb_insert_line b ih i s
  | insert_char b d row col ch _ hrow ih => exact WFb_insert_char b d ih row col ch hrow
  | delete_char b d row col _ hrow ih => exact WFb_delete_char b d ih row col hrow
  | split_line b d row col _ hrow ih => exact WFb_split_line b d ih row col hrow
  | join_prev b d row _ ih => exact WFb_join_with_prev b d ih row
  | load b ls _ _ => exact WFb_editor_open_lines ls

/-- Claim C2: in every state reachable from the initial buffer by any sequence
of the buffer operations (insert line, insert char, delete char, split line,
join with previous, load), the line count satisfies `count >= 1`, and for
every line index `i` the cached length `len[i]` equals the actual content
length of line `i`. -/
theorem buffer_invariant_reachable (b : Buffer) (h : ReachBuf b) :
    1 ≤ b.count ∧ ∀ i, i < b.count → b.len.getD i 0 = (b.lines.getD i []).length := by
  obtain ⟨h1, _, _, h4⟩ := WFb_of_ReachBuf b h
  exact ⟨h1, h4⟩

/-! ### The view and the scroll-adjustment step -/

/-- `View` mirrors the C struct of the v0.3 source (with `pref_cx`, the
preferred column for vertical motion). -/
@[ext] structure View where
  cx : Nat
  cy : Nat
  rowoff : Nat
  coloff : Nat
  screenrows : Nat
  screencols : Nat
  pref_cx : Nat
deriving Repr, DecidableEq

/-- `editor_scroll`: adjust `rowoff`/`coloff` so the cursor is inside the
viewport.  The C tests run in sequence on the mutated fields, which the
chained `let`s reproduce. -/
def editor_scroll (v : View) : View :=
  let rowoff1 := if v.cy < v.rowoff then v.cy else v.rowoff
  let rowoff2 := if v.cy ≥ rowoff1 + v.screenrows then v.cy - v.screenrows + 1 else rowoff1
  let coloff1 := if v.cx < v.coloff then v.cx else v.coloff
  let coloff2 := if v.cx ≥ coloff1 + v.screencols then v.cx - v.screencols + 1 else coloff1
  { v with rowoff := rowoff2, coloff := coloff2 }

/-- Claim C9: the scroll-adjustment step is idempotent — after one run,
running it again with the same cursor position and screen dimensions leaves
`rowoff` and `coloff` unchanged — and it never modifies the cursor
coordinates, only the scroll offsets. -/
theorem editor_scroll_idempotent (v : View) :
    editor_scroll (editor_scroll v) = editor_scroll v ∧
    (editor_scroll v).cx = v.cx ∧ (editor_scroll v).cy = v.cy := by
  refine ⟨?_, rfl, rfl⟩
  simp only [editor_scroll]
  ext <;> dsimp <;> split_ifs <;> omega

/-! ### The full editor state

The C program keeps the buffer, the view, the dirty flag, the search
bookkeeping (`last_query`, `last_match_row`, `last_match_col`), the highlight
span (`hl_row`, `hl_col`, `hl_len`) and the quit-confirmation counter
(`quit_times_needed`) in globals; `EState` bundles them.  The match/highlight
fields genuinely hold the sentinel `-1`, so they are `Int`. -/

@[ext] structure EState where
  buf : Buffer
  view : View
  dirty : Bool
  last_query : List Char
  last_match_row : Int
  last_match_col : Int
  hl_row : Int
  hl_col : Int
  hl_len : Int
  quit_times_needed : Nat
deriving Repr, DecidableEq

/-- The repeated C idiom `hl_row = hl_col = hl_len = -1;`. -/
def clearHl (st : EState) : EState :=
  { st with hl_row := -1, hl_col := -1, hl_len := -1 }

/-- `quit_times_needed = 1;`, performed by every handled non-quit key. -/
def resetQuit (st : EState) : EState :=
  { st with quit_times_needed := 1 }

/-- The initial editor state of `main` before any key is processed (buffer
initialised to one empty line, cursor and offsets zero, clean, no search
state; `hl_len` starts at `0` and `quit_times_needed` at `1`).  The screen
dimensions come from the terminal; the 24x80 fallback of
`editor_update_dimensions` (minus two reserved rows) is used here. -/
def initState : EState :=
  ⟨buffer_init, ⟨0, 0, 0, 0, 22, 80, 0⟩, false, [], -1, -1, -1, -1, 0, 1⟩

/-! ### Movement and editing operations (v0.3) -/

/-- `editor_move_cursor`: arrows (decoded as 1001-1004), Home (`'H'` = 72) and
End (`'E'` = 69).  The C guard `if (view.cy > 0) view.cy--` for Up coincides
with truncated `Nat` subtraction. -/
def editor_move_cursor (st : EState) (key : Int) : EState :=
  let v := st.view
  let b := st.buf
  if key = 1004 then
    if v.cx > 0 then { st with view := { v with cx := v.cx - 1, pref_cx := v.cx - 1 } }
    else if v.cy > 0 then
      let L := b.len.getD (v.cy - 1) 0
      { st with view := { v with cy := v.cy - 1, cx := L, pref_cx := L } }
    else st
  else if key = 1003 then
    if v.cy < b.count then
      let L := b.len.getD v.cy 0
      if v.cx < L then { st with view := { v with cx := v.cx + 1, pref_cx := v.cx + 1 } }
      else if v.cy + 1 < b.count then
        { st with view := { v with cy := v.cy + 1, cx := 0, pref_cx := 0 } }
      else st
    else st
  else if key = 1001 then
    let cy := v.cy - 1
    let L := b.len.getD cy 0
    { st with view := { v with cy := cy, cx := if v.pref_cx ≤ L then v.pref_cx else L } }
  else if key = 1002 then
    if v.cy + 1 < b.count then
      let cy := v.cy + 1
      let L := b.len.getD cy 0
      { st with view := { v with cy := cy, cx := if v.pref_cx ≤ L then v.pref_cx else L } }
    else
      let b' := buffer_append_empty b
      let cy := v.cy + 1
      let L := b'.len.getD cy 0
      let vv := { v with cy := cy, cx := if v.pref_cx ≤ L then v.pref_cx else L }
      { st with buf := b', view := vv }
  else if key = 72 then { st with view := { v with cx := 0, pref_cx := 0 } }
  else if key = 69 then
    let L := b.len.getD v.cy 0
    { st with view := { v with cx := L, pref_cx := L } }
  else st

/-- `editor_move_cursor_vert`: PageUp (1005) / PageDown (1006).  The C clamps
`page = screenrows - 2` up to at least 1 and `cy` into `[0, count-1]`; the
`Nat` subtractions implement exactly those clamps. -/
def editor_move_cursor_vert (st : EState) (key : Int) : EState :=
  let v := st.view
  let page0 := v.screenrows - 2
  let page := if page0 < 1 then 1 else page0
  let cy :=
    if key = 1005 then v.cy - page
    else if v.cy + page ≥ st.buf.count then st.buf.count - 1 else v.cy + page
  let L := st.buf.len.getD cy 0
  { st with view := { v with cy := cy, cx := if v.pref_cx ≤ L then v.pref_cx else L } }

/-- `editor_insert_char`: insert at the cursor, advance, update the preferred
column, clear the search highlight. -/
def editor_insert_char (st : EState) (c : Char) : EState :=
  let r := buffer_insert_char st.buf st.dirty st.view.cy st.view.cx c
  let vv := { st.view with cx := st.view.cx + 1, pref_cx := st.view.cx + 1 }
  clearHl { st with buf := r.1, dirty := r.2, view := vv }

/-- `editor_insert_newline`: split at the cursor, move to the start of the new
line, clear the highlight. -/
def editor_insert_newline (st : EState) : EState :=
  let r := buffer_split_line st.buf st.dirty st.view.cy st.view.cx
  let vv := { st.view with cy := st.view.cy + 1, cx := 0, pref_cx := 0 }
  clearHl { st with buf := r.1, dirty := r.2, view := vv }

/-- `editor_backspace`: delete the byte before the cursor, or join with the
previous line at column 0; clears the highlight in every case. -/
def editor_backspace (st : EState) : EState :=
  clearHl <|
    if st.view.cx > 0 then
      let r := buffer_delete_char st.buf st.dirty st.view.cy st.view.cx
      let vv := { st.view with cx := st.view.cx - 1, pref_cx := st.view.cx - 1 }
      { st with buf := r.1, dirty := r.2, view := vv }
    else if st.view.cy > 0 then
      let prev_len := st.buf.len.getD (st.view.cy - 1) 0
      let r := buffer_join_with_prev st.buf st.dirty st.view.cy
      let vv := { st.view with cy := st.view.cy - 1, cx := prev_len, pref_cx := prev_len }
      { st with buf := r.1, dirty := r.2, view := vv }
    else st

/-! ### The search engine

`strstr(hay + off, q)` returns the first occurrence of `q` inside the suffix
of `hay` starting at byte `off` (scanning up to the terminating NUL, i.e. the
actual line content).  `lineOccs` lists all occurrence positions of `q` in a
line in increasing order, and `cstrstr_from` is the first one at or past
`off` — exactly the libc contract, with positions reported relative to the
whole line as the C does with `p - hay`. -/

def lineOccs (hay q : List Char) : List Nat :=
  (List.range (hay.length + 1)).filter (fun i => List.isPrefixOf q (List.drop i hay))

def cstrstr_from (hay q : List Char) (off : Nat) : Option Nat :=
  ((lineOccs hay q).filter (fun i => decide (off ≤ i))).head?

/-- One round of the scan loop of `editor_find_next`: rows `r, r+1, ...` up to
`count - 1`, starting at column `c` in row `r` and at column 0 afterwards,
skipping rows whose cached length is 0, clamping the start column to the
cached length (`c < buf.len[r] ? c : buf.len[r]`).  The `fuel` argument only
bounds the recursion; `scan_from` passes `b.count`, which the loop can never
exhaust since `r` increases every step. -/
def scanRows (b : Buffer) (q : List Char) : Nat → Nat → Nat → Option (Nat × Nat)
  | _, _, 0 => none
  | r, c, fuel + 1 =>
    if r < b.count then
      let hay := b.lines.getD r []
      let L := b.len.getD r 0
      if L = 0 then scanRows b q (r + 1) 0 fuel
      else
        match cstrstr_from hay q (min c L) with
        | some col => some (r, col)
        | none => scanRows b q (r + 1) 0 fuel
    else none

def scan_from (b : Buffer) (q : List Char) (r c : Nat) : Option (Nat × Nat) :=
  scanRows b q r c b.count

/-- The two rounds of `editor_find_next`: scan from `(r, c)` to the end, then
wrap and scan once more from `(0, 0)`. -/
def scan2 (b : Buffer) (q : List Char) (r c : Nat) : Option (Nat × Nat) :=
  match scan_from b q r c with
  | some p => some p
  | none => scan_from b q 0 0

/-- `editor_find_next`: returns whether a match was found together with the
updated state.  With `from_current` the scan starts at the cursor, otherwise
just past the last recorded match.  The start coordinates are C `int`s; in
every reachable call they are non-negative (`last_match_row`/`col` are only
read here after a search initialised them), which `Int.toNat` makes explicit.
On success the match is recorded, the highlight set, and the cursor moved. -/
def editor_find_next (from_current : Bool) (st : EState) : Bool × EState :=
  if st.last_query = [] then (false, st)
  else
    let r : Int := if from_current then (st.view.cy : Int) else st.last_match_row
    let c : Int := if from_current then (st.view.cx : Int) else st.last_match_col + 1
    match scan2 st.buf st.last_query r.toNat c.toNat with
    | some (mr, mc) =>
      (true, { st with
        last_match_row := (mr : Int), last_match_col := (mc : Int),
        hl_row := (mr : Int), hl_col := (mc : Int),
        hl_len := (st.last_query.length : Int),
        view := { st.view with cy := mr, cx := mc, pref_cx := mc } })
    | none => (false, st)

/-- `editor_find`: the part after the interactive prompt.  `res` is the
prompt's outcome: `none` when the user cancelled with Escape (the prompt
returns `true` only for a non-empty string).  On cancel the highlight is
cleared; otherwise the query is recorded, the search anchor set to the cursor
(column minus one, so the first scan starts at the cursor itself), and a
search from the cursor runs; if it misses, the highlight is cleared. -/
def editor_find (st : EState) (res : Option (List Char)) : EState :=
  match res with
  | none => clearHl st
  | some q =>
    let st1 := { st with
      last_query := q
      last_match_row := (st.view.cy : Int)
      last_match_col := (st.view.cx : Int) - 1 }
    let r := editor_find_next true st1
    if r.1 then r.2 else clearHl r.2

/-! ### The key decoder -/

/-- The escape-sequence collection loop of `editor_read_key`: read up to 16
bytes, stopping after a byte that is an uppercase letter or `~`, or when no
byte is pending. -/
def collectSeq : List Int → Nat → List Int
  | _, 0 => []
  | [], _ => []
  | b :: rest, n + 1 =>
    if (65 ≤ b ∧ b ≤ 90) ∨ b = 126 then [b]
    else b :: collectSeq rest n

/-- The digit-accumulation loop over `seq[1..n-2]` of `editor_read_key`. -/
def parseSeqNum (ds : List Int) : Int :=
  ds.foldl (fun num d => if 48 ≤ d ∧ d ≤ 57 then num * 10 + (d - 48) else num) 0

/-- `editor_read_key` (v0.3): `c` is the first byte read, `pending` the bytes
available after it.  Escape (27) introduces a CSI (`[` = 91) or `ESC O`
(79) sequence; anything unrecognised decodes to Escape.  Arrow keys map to
the synthetic codes 1001-1004, PageUp/Down to 1005/1006, Home/End to the
codes of `'H'` (72) and `'E'` (69), and Delete (`ESC [ 3 ~`) to 127, the
Backspace code. -/
def editor_read_key (c : Int) (pending : List Int) : Int :=
  if c ≠ 27 then c
  else
    let seq := collectSeq pending 16
    let n := seq.length
    if n = 0 then 27
    else if seq.getD 0 0 = 91 then
      if n = 2 then
        let f := seq.getD 1 0
        if f = 65 then 1001 else if f = 66 then 1002
        else if f = 67 then 1003 else if f = 68 then 1004
        else if f = 72 then 72 else if f = 70 then 69
        else 27
      else if 3 ≤ n ∧ 48 ≤ seq.getD 1 0 ∧ seq.getD 1 0 ≤ 57 then
        let num := parseSeqNum ((seq.drop 1).take (n - 2))
        if num = 1 ∨ num = 7 then 72
        else if num = 4 ∨ num = 8 then 69
        else if num = 3 then 127
        else if num = 5 then 1005
        else if num = 6 then 1006
        else 27
      else 27
    else if seq.getD 0 0 = 79 ∧ n = 2 then
      let f := seq.getD 1 0
      if f = 65 then 1001 else if f = 66 then 1002
      else if f = 67 then 1003 else if f = 68 then 1004
      else if f = 72 then 72 else if f = 70 then 69
      else 27
    else 27

/-! ### The main-loop dispatch -/

/-- The outcomes of the two interactive sub-loops that the dispatcher calls:
whether `editor_save_atomic` succeeds (it only touches the dirty flag and the
file system), and the outcome of the search prompt. -/
structure Env where
  save_ok : Bool
  find_result : Option (List Char)
deriving Repr, DecidableEq

def isprintI (c : Int) : Bool := decide (32 ≤ c) && decide (c ≤ 126)

/-- One iteration of the main loop of `main` (v0.3) on decoded key `c`:
returns the successor state and whether the session terminates.  Key codes:
Ctrl-Q = 17, Ctrl-S = 19, Ctrl-F = 6, Ctrl-N = 14, Enter = 13 or 10,
Backspace/Delete = 127, Home/End = 72/69, arrows 1001-1004, paging
1005/1006; any other printable byte is inserted.  The branch order is the
C's, so the decoded Home/End codes shadow the printable bytes `'H'`/`'E'`. -/
def dispatch (env : Env) (st : EState) (c : Int) : EState × Bool :=
  if c = 17 then
    if st.dirty = true ∧ 0 < st.quit_times_needed then
      ({ st with quit_times_needed := st.quit_times_needed - 1 }, false)
    else (st, true)
  else if c = 19 then
    (resetQuit (if env.save_ok then { st with dirty := false } else st), false)
  else if c = 6 then
    (resetQuit (editor_find st env.find_result), false)
  else if c = 14 then
    (resetQuit (editor_find_next false st).2, false)
  else if c = 1005 ∨ c = 1006 then
    (clearHl (resetQuit (editor_move_cursor_vert st c)), false)
  else if c = 1001 ∨ c = 1002 ∨ c = 1003 ∨ c = 1004 ∨ c = 72 ∨ c = 69 then
    (clearHl (resetQuit (editor_move_cursor st c)), false)
  else if c = 13 ∨ c = 10 then
    (resetQuit (editor_insert_newline st), false)
  else if c = 127 then
    (resetQuit (editor_backspace st), false)
  else if isprintI c then
    (resetQuit (editor_insert_char st (Char.ofNat c.toNat)), false)
  else (st, false)

/-! ### The atomic save (claim C1)

`editor_save_atomic` writes the buffer to `<name>.tmp`, fsyncs, closes, and
renames the temporary over the target.  The file system is abstracted to the
two slots the function can touch: the target file and its `.tmp` sibling
(`none` = the file does not exist).  `SaveEnv` is the fault schedule: whether
the `open` of the temporary fails, which `write` calls fail (the k-th write
call overall; line `i` issues writes `2*i` for the content and `2*i + 1` for
the newline), and whether `fsync`, `close`, `rename` fail. -/

structure FileSys where
  target : Option (List Char)
  tmpfile : Option (List Char)
deriving Repr, DecidableEq

structure SaveEnv where
  openFail : Bool
  writeFail : Nat → Bool
  fsyncFail : Bool
  closeFail : Bool
  renameFail : Bool

/-- The write loop of `editor_save_atomic`: for each row `i < count`, write
the `len[i]` bytes of the line, then one `\n`.  Returns the `ok` flag and the
bytes accumulated in the temporary file (a failed write appends nothing and
stops the loop).  `fuel` bounds the recursion and is passed as `b.count`. -/
def writeRows (env : SaveEnv) (b : Buffer) : Nat → Nat → Bool × List Char
  | _, 0 => (true, [])
  | i, fuel + 1 =>
    if i < b.count then
      let line := (b.lines.getD i []).take (b.len.getD i 0)
      if env.writeFail (2 * i) then (false, [])
      else if env.writeFail (2 * i + 1) then (false, line)
      else
        let r := writeRows env b (i + 1) fuel
        (r.1, line ++ '\n' :: r.2)
    else (true, [])

/-- The on-disk image of the whole buffer: every line (its cached-length many
bytes) followed by one newline. -/
def bufferFileImage (b : Buffer) : Nat → Nat → List Char
  | _, 0 => []
  | i, fuel + 1 =>
    if i < b.count then
      (b.lines.getD i []).take (b.len.getD i 0) ++ '\n' :: bufferFileImage b (i + 1) fuel
    else []

theorem writeRows_ok (env : SaveEnv) (b : Buffer) : ∀ (fuel i : Nat),
    (writeRows env b i fuel).1 = true → (writeRows env b i fuel).2 = bufferFileImage b i fuel
  | 0, i, _ => rfl
  | fuel + 1, i, h => by
    by_cases hc : i < b.count
    · simp only [writeRows, bufferFileImage, hc, if_true] at h ⊢
      by_cases h0 : env.writeFail (2 * i)
      · simp [h0] at h
      · by_cases h1 : env.writeFail (2 * i + 1)
        · simp [h0, h1] at h
        · simp only [h0, h1, Bool.false_eq_true, if_false] at h ⊢
          rw [writeRows_ok env b fuel (i + 1) h]
    · simp [writeRows, bufferFileImage, hc]

/-- `editor_save_atomic` as a function of the buffer, the dirty flag, the file
system and the fault schedule; returns (success, dirty, file system).  A
failed `open` leaves everything untouched; once the temporary is open it holds
the bytes written so far; any failure (`ok == false` covers write, fsync and
close failures exactly as the C `ok` flag does) unlinks the temporary and
returns; a failed `rename` also unlinks; on success the target becomes the
temporary's content and the dirty flag clears. -/
def editor_save_atomic (b : Buffer) (dirty : Bool) (fs : FileSys) (env : SaveEnv) :
    Bool × Bool × FileSys :=
  if env.openFail then (false, dirty, fs)
  else
    let w := writeRows env b 0 b.count
    let ok := w.1 && !env.fsyncFail && !env.closeFail
    if ok = false then (false, dirty, ⟨fs.target, none⟩)
    else if env.renameFail then (false, dirty, ⟨fs.target, none⟩)
    else (true, false, ⟨some w.2, none⟩)

/-- Claim C1: for every buffer state and every failure point of the save
operation (open of the temporary file, any write, flush, rename — and close),
a failed save removes the temporary file and leaves both the on-disk target
and the dirty flag exactly as they were before the call; the on-disk target
changes only via the rename of the fully written temporary, i.e. to the
complete file image of the buffer. -/
theorem save_atomic_failure_frame (b : Buffer) (d : Bool) (fs : FileSys) (env : SaveEnv)
    (htmp : fs.tmpfile = none) :
    ((editor_save_atomic b d fs env).1 = false →
      (editor_save_atomic b d fs env).2.2.target = fs.target ∧
      (editor_save_atomic b d fs env).2.1 = d ∧
      (editor_save_atomic b d fs env).2.2.tmpfile = none) ∧
    ((editor_save_atomic b d fs env).2.2.target ≠ fs.target →
      (editor_save_atomic b d fs env).1 = true ∧
      (editor_save_atomic b d fs env).2.2.target = some (bufferFileImage b 0 b.count) ∧
      (editor_save_atomic b d fs env).2.2.tmpfile = none) := by
  simp only [editor_save_atomic]
  by_cases hopen : env.openFail
  · simp [hopen, htmp]
  · simp only [hopen, Bool.false_eq_true, if_false]
    set w := writeRows env b 0 b.count with hw
    by_cases hok : (w.1 && !env.fsyncFail && !env.closeFail) = false
    · simp [hok]
    · have hok' : (w.1 && !env.fsyncFail && !env.closeFail) = true := by
        revert hok
        cases (w.1 && !env.fsyncFail && !env.closeFail) <;> simp
      have hw1 : w.1 = true := by
        revert hok'
        cases w.1 <;> simp
      rw [if_neg hok]
      by_cases hren : env.renameFail
      · simp [hren]
      · rw [if_neg hren]
        refine ⟨fun hfalse => by simp at hfalse, fun _ => ⟨rfl, ?_, rfl⟩⟩
        rw [writeRows_ok env b b.count 0 hw1]

/-- Claim C10: the key decoder maps the Delete sequence `ESC [ 3 ~` (bytes
27, 91, 51, 126) to code 127, the same key event as Backspace, and the
dispatcher sends code 127 to `editor_backspace` (delete the byte before the
cursor, or join with the previous line at column 0) — not to any forward
deletion. -/
theorem delete_key_backspace :
    editor_read_key 27 [91, 51, 126] = 127 ∧
    ∀ (env : Env) (st : EState), dispatch env st 127 = (resetQuit (editor_backspace st), false) := by
  refine ⟨by decide, fun env st => ?_⟩
  rfl

/-! ### Projection helpers for the state-update combinators -/

@[simp] theorem clearHl_buf (st : EState) : (clearHl st).buf = st.buf := rfl

@[simp] theorem clearHl_view (st : EState) : (clearHl st).view = st.view := rfl

@[simp] theorem clearHl_dirty (st : EState) : (clearHl st).dirty = st.dirty := rfl

@[simp] theorem clearHl_quit (st : EState) :
    (clearHl st).quit_times_needed = st.quit_times_needed := rfl

@[simp] theorem clearHl_query (st : EState) : (clearHl st).last_query = st.last_query := rfl

@[simp] theorem resetQuit_buf (st : EState) : (resetQuit st).buf = st.buf := rfl

@[simp] theorem resetQuit_view (st : EState) : (resetQuit st).view = st.view := rfl

@[simp] theorem resetQuit_dirty (st : EState) : (resetQuit st).dirty = st.dirty := rfl

@[simp] theorem resetQuit_quit (st : EState) : (resetQuit st).quit_times_needed = 1 := rfl

@[simp] theorem resetQuit_query (st : EState) :
    (resetQuit st).last_query = st.last_query := rfl

/-- The cursor/buffer well-formedness the main loop maintains: the buffer
invariant plus the cursor bounds of the spec. -/
def StateWF (st : EState) : Prop :=
  WFb st.buf ∧ st.view.cy < st.buf.count ∧ st.view.cx ≤ st.buf.len.getD st.view.cy 0

instance : DecidablePred StateWF := fun st => by
  unfold StateWF
  infer_instance

/-- The handled non-quit keys of the main loop: Ctrl-S, Ctrl-F, Ctrl-N,
paging, arrows, Home/End, Enter, Backspace/Delete, and the printable bytes. -/
def isActionKey (c : Int) : Prop :=
  c = 19 ∨ c = 6 ∨ c = 14 ∨ c = 1005 ∨ c = 1006 ∨ c = 1001 ∨ c = 1002 ∨ c = 1003 ∨
  c = 1004 ∨ c = 72 ∨ c = 69 ∨ c = 13 ∨ c = 10 ∨ c = 127 ∨ (32 ≤ c ∧ c ≤ 126)

instance : DecidablePred isActionKey := fun c => by
  unfold isActionKey
  infer_instance

/-- Claim C5: the quit-confirmation counter starts at 1; a quit request
(Ctrl-Q = 17) while the buffer is dirty and the counter is positive
decrements the counter and is refused (the session continues, the state is
otherwise untouched); a quit request with the counter at 0, or with a clean
buffer, terminates the session; and every dispatched non-quit action resets
the counter to 1. -/
theorem quit_counter_behavior :
    initState.quit_times_needed = 1 ∧
    (∀ (env : Env) (st : EState), st.dirty = true → 0 < st.quit_times_needed →
      dispatch env st 17 =
        ({ st with quit_times_needed := st.quit_times_needed - 1 }, false)) ∧
    (∀ (env : Env) (st : EState), st.quit_times_needed = 0 ∨ st.dirty = false →
      dispatch env st 17 = (st, true)) ∧
    (∀ (env : Env) (st : EState) (c : Int), isActionKey c →
      (dispatch env st c).1.quit_times_needed = 1) := by
  refine ⟨rfl, ?_, ?_, ?_⟩
  · intro env st h1 h2
    simp [dispatch, h1, h2]
  · intro env st h
    have hcond : ¬(st.dirty = true ∧ 0 < st.quit_times_needed) := by
      rcases h with h | h <;> simp [h]
    simp [dispatch, hcond]
  · intro env st c h
    rcases h with h | h | h | h | h | h | h | h | h | h | h | h | h | h | h
    all_goals try (subst h; rfl)
    obtain ⟨hlo, hhi⟩ := h
    have h17 : ¬(c = 17) := by omega
    have h19 : ¬(c = 19) := by omega
    have h6 : ¬(c = 6) := by omega
    have h14 : ¬(c = 14) := by omega
    have hpg : ¬(c = 1005 ∨ c = 1006) := by omega
    by_cases hmv : c = 1001 ∨ c = 1002 ∨ c = 1003 ∨ c = 1004 ∨ c = 72 ∨ c = 69
    · simp [dispatch, h17, h19, h6, h14, hpg, hmv]
    · have hent : ¬(c = 13 ∨ c = 10) := by omega
      have h127 : ¬(c = 127) := by omega
      have hpr : isprintI c = true := by
        simp only [isprintI, Bool.and_eq_true, decide_eq_true_eq]
        omega
      simp [dispatch, h17, h19, h6, h14, hpg, hmv, hent, h127, hpr]

/-! ### Frame lemmas for the search and motion operations -/

theorem find_next_frame (fc : Bool) (st : EState) :
    (editor_find_next fc st).2.buf = st.buf ∧ (editor_find_next fc st).2.dirty = st.dirty ∧
    (editor_find_next fc st).2.last_query = st.last_query ∧
    (editor_find_next fc st).2.quit_times_needed = st.quit_times_needed := by
  unfold editor_find_next
  by_cases hq : st.last_query = []
  · simp [hq]
  · simp only [hq, if_false]
    split <;> simp_all

theorem editor_find_dirty (st : EState) (res : Option (List Char)) :
    (editor_find st res).dirty = st.dirty := by
  cases res with
  | none => rfl
  | some q =>
    have h := (find_next_frame true
      { st with
        last_query := q
        last_match_row := (st.view.cy : Int)
        last_match_col := (st.view.cx : Int) - 1 }).2.1
    simp only [editor_find]
    split
    · exact h
    · rw [clearHl_dirty]
      exact h

theorem move_cursor_dirty (st : EState) (k : Int) :
    (editor_move_cursor st k).dirty = st.dirty := by
  simp only [editor_move_cursor]
  split_ifs <;> rfl

theorem move_cursor_vert_dirty (st : EState) (k : Int) :
    (editor_move_cursor_vert st k).dirty = st.dirty := by
  simp only [editor_move_cursor_vert]

theorem backspace_dirty (st : EState) (h : st.dirty = true) :
    (editor_backspace st).dirty = true := by
  unfold editor_backspace
  by_cases hx : st.view.cx > 0
  · simp only [hx, if_pos, clearHl_dirty]
    show (buffer_delete_char st.buf st.dirty st.view.cy st.view.cx).2 = true
    simp only [buffer_delete_char]
    split_ifs <;> simp [h]
  · by_cases hy : st.view.cy > 0
    · simp only [hx, hy, if_false, if_pos, clearHl_dirty]
      show (buffer_join_with_prev st.buf st.dirty st.view.cy).2 = true
      simp only [buffer_join_with_prev]
      split_ifs <;> simp [h]
    · simp [hx, hy, h]

/-- Claim C4 counterexample: pressing Down (code 1002) with the cursor on the
last line appends a new empty line to the document (the line count grows, so
the document content and what a save writes change) while the dirty flag
stays `false` — `buffer_insert_line`, unlike the character-level mutations,
never sets it.  This refutes "every operation that mutates document content
sets the dirty flag ... in particular, pressing Down on the last line ...
sets the dirty flag". -/
theorem dirty_flag_counterexample :
    (dispatch ⟨false, none⟩
        ⟨⟨[['a']], [1], 1⟩, ⟨0, 0, 0, 0, 22, 80, 0⟩, false, [], -1, -1, -1, -1, 0, 1⟩
        1002).1.buf.count = 2 ∧
    (dispatch ⟨false, none⟩
        ⟨⟨[['a']], [1], 1⟩, ⟨0, 0, 0, 0, 22, 80, 0⟩, false, [], -1, -1, -1, -1, 0, 1⟩
        1002).1.dirty = false := by
  decide

/-- Claim C4 (amended): the character-level content mutations reached from the
dispatcher — printable insert (except the bytes 72 `'H'` and 69 `'E'`, which
the decoded Home/End codes shadow), Enter, and Backspace whenever it actually
mutates (cursor not at the origin) — set the dirty flag; the dirty flag is
cleared only by a successful save (the fresh load happens before the loop);
and Down on the last line appends a new empty line without touching the
dirty flag. -/
theorem dirty_flag_behavior :
    (∀ (env : Env) (st : EState) (c : Int), 32 ≤ c → c ≤ 126 → c ≠ 72 → c ≠ 69 →
      (dispatch env st c).1.dirty = true) ∧
    (∀ (env : Env) (st : EState) (c : Int), c = 13 ∨ c = 10 →
      (dispatch env st c).1.dirty = true) ∧
    (∀ (env : Env) (st : EState), StateWF st → 0 < st.view.cx ∨ 0 < st.view.cy →
      (dispatch env st 127).1.dirty = true) ∧
    (∀ (env : Env) (st : EState) (c : Int), st.dirty = true →
      (dispatch env st c).1.dirty = false → c = 19 ∧ env.save_ok = true) ∧
    (∀ (env : Env) (st : EState), st.view.cy + 1 = st.buf.count →
      (dispatch env st 1002).1.buf.count = st.buf.count + 1 ∧
      (dispatch env st 1002).1.dirty = st.dirty) := by
  refine ⟨?_, ?_, ?_, ?_, ?_⟩
  · intro env st c hlo hhi h72 h69
    have h17 : ¬(c = 17) := by omega
    have h19 : ¬(c = 19) := by omega
    have h6 : ¬(c = 6) := by omega
    have h14 : ¬(c = 14) := by omega
    have hpg : ¬(c = 1005 ∨ c = 1006) := by omega
    have hmv : ¬(c = 1001 ∨ c = 1002 ∨ c = 1003 ∨ c = 1004 ∨ c = 72 ∨ c = 69) := by omega
    have hent : ¬(c = 13 ∨ c = 10) := by omega
    have h127 : ¬(c = 127) := by omega
    have hpr : isprintI c = true := by
      simp only [isprintI, Bool.and_eq_true, decide_eq_true_eq]
      omega
    simp [dispatch, h17, h19, h6, h14, hpg, hmv, hent, h127, hpr, editor_insert_char,
      buffer_insert_char]
  · intro env st c h
    rcases h with h | h <;> subst h <;> rfl
  · intro env st hwf hpos
    have hd : dispatch env st 127 = (resetQuit (editor_backspace st), false) := rfl
    rw [hd]
    obtain ⟨⟨hb1, hb2, hb3, hb4⟩, hcy, hcx⟩ := hwf
    simp only [resetQuit_dirty]
    unfold editor_backspace
    by_cases hx : st.view.cx > 0
    · simp only [hx, if_pos, clearHl_dirty]
      show (buffer_delete_char st.buf st.dirty st.view.cy st.view.cx).2 = true
      unfold buffer_delete_char
      rw [if_neg (by omega)]
    · have hy : st.view.cy > 0 := by omega
      simp only [hx, hy, if_false, if_pos, clearHl_dirty]
      show (buffer_join_with_prev st.buf st.dirty st.view.cy).2 = true
      unfold buffer_join_with_prev
      rw [if_neg (by omega)]
  · intro env st c hd hfd
    by_cases h17 : c = 17
    · subst h17
      have h1 : (dispatch env st 17).1.dirty = st.dirty := by
        by_cases hq : st.dirty = true ∧ 0 < st.quit_times_needed
        · simp [dispatch, hq]
        · simp [dispatch, hq]
      rw [h1, hd] at hfd
      exact absurd hfd (by simp)
    · by_cases h19 : c = 19
      · subst h19
        refine ⟨rfl, ?_⟩
        by_cases hs : env.save_ok
        · exact hs
        · simp [dispatch, hs, hd] at hfd
      · exfalso
        by_cases h6 : c = 6
        · subst h6
          rw [show dispatch env st 6 = (resetQuit (editor_find st env.find_result), false)
            from rfl] at hfd
          rw [resetQuit_dirty, editor_find_dirty, hd] at hfd
          simp at hfd
        · by_cases h14 : c = 14
          · subst h14
            rw [show dispatch env st 14 =
              (resetQuit (editor_find_next false st).2, false) from rfl] at hfd
            rw [resetQuit_dirty, (find_next_frame false st).2.1, hd] at hfd
            simp at hfd
          · by_cases hpg : c = 1005 ∨ c = 1006
            · have hdis : dispatch env st c =
                  (clearHl (resetQuit (editor_move_cursor_vert st c)), false) := by
                rcases hpg with h | h <;> subst h <;> rfl
              rw [hdis] at hfd
              rw [clearHl_dirty, resetQuit_dirty, move_cursor_vert_dirty, hd] at hfd
              simp at hfd
            · by_cases hmv : c = 1001 ∨ c = 1002 ∨ c = 1003 ∨ c = 1004 ∨ c = 72 ∨ c = 69
              · have hdis : dispatch env st c =
                    (clearHl (resetQuit (editor_move_cursor st c)), false) := by
                  rcases hmv with h | h | h | h | h | h <;> subst h <;> rfl
                rw [hdis] at hfd
                rw [clearHl_dirty, resetQuit_dirty, move_cursor_dirty, hd] at hfd
                simp at hfd
              · by_cases hent : c = 13 ∨ c = 10
                · have hdis : dispatch env st c =
                      (resetQuit (editor_insert_newline st), false) := by
                    rcases hent with h | h <;> subst h <;> rfl
                  rw [hdis] at hfd
                  simp [editor_insert_newline, buffer_split_line] at hfd
                · by_cases h127 : c = 127
                  · subst h127
                    rw [show dispatch env st 127 =
                      (resetQuit (editor_backspace st), false) from rfl] at hfd
                    rw [resetQuit_dirty, backspace_dirty st hd] at hfd
                    simp at hfd
                  · by_cases hpr : isprintI c = true
                    · have hdis : dispatch env st c =
                          (resetQuit (editor_insert_char st (Char.ofNat c.toNat)), false) := by
                        simp [dispatch, h17, h19, h6, h14, hpg, hmv, hent, h127, hpr]
                      rw [hdis] at hfd
                      simp [editor_insert_char, buffer_insert_char] at hfd
                    · have hdis : dispatch env st c = (st, false) := by
                        simp [dispatch, h17, h19, h6, h14, hpg, hmv, hent, h127, hpr]
                      rw [hdis] at hfd
                      rw [hd] at hfd
                      simp at hfd
  · intro env st h
    have hd : dispatch env st 1002 =
        (clearHl (resetQuit (editor_move_cursor st 1002)), false) := rfl
    rw [hd]
    simp only [clearHl_buf, resetQuit_buf, clearHl_dirty, resetQuit_dirty]
    unfold editor_move_cursor
    have hnot : ¬(st.view.cy + 1 < st.buf.count) := by omega
    have hcnt : (buffer_append_empty st.buf).count = st.buf.count + 1 := by
      simp [buffer_append_empty, buffer_insert_line]
    constructor
    · show (editor_move_cursor st 1002).buf.count = st.buf.count + 1
      simp [editor_move_cursor, hnot, hcnt]
    · exact move_cursor_dirty st 1002

/-! ### Cursor invariant (claim C3) -/

theorem mem_lineOccs (hay q : List Char) (i : Nat) (h : i ∈ lineOccs hay q) :
    i ≤ hay.length ∧ List.isPrefixOf q (List.drop i hay) = true := by
  unfold lineOccs at h
  rw [List.mem_filter, List.mem_range] at h
  exact ⟨by omega, h.2⟩

theorem cstrstr_from_le (hay q : List Char) (off col : Nat)
    (h : cstrstr_from hay q off = some col) : col ≤ hay.length := by
  unfold cstrstr_from at h
  have hmem : col ∈ (lineOccs hay q).filter (fun i => decide (off ≤ i)) :=
    List.mem_of_mem_head? (by rw [Option.mem_def, h])
  exact (mem_lineOccs hay q col (List.mem_of_mem_filter hmem)).1

theorem scanRows_bound (b : Buffer) (q : List Char) : ∀ (fuel r c mr mc : Nat),
    scanRows b q r c fuel = some (mr, mc) →
    mr < b.count ∧ mc ≤ (b.lines.getD mr []).length
  | 0, r, c, mr, mc, h => by simp [scanRows] at h
  | fuel + 1, r, c, mr, mc, h => by
    simp only [scanRows] at h
    by_cases hr : r < b.count
    · rw [if_pos hr] at h
      by_cases hL : b.len.getD r 0 = 0
      · rw [if_pos hL] at h
        exact scanRows_bound b q fuel (r + 1) 0 mr mc h
      · rw [if_neg hL] at h
        cases hc : cstrstr_from (b.lines.getD r []) q (min c (b.len.getD r 0)) with
        | none =>
          rw [hc] at h
          exact scanRows_bound b q fuel (r + 1) 0 mr mc h
        | some col =>
          rw [hc] at h
          simp only [Option.some.injEq, Prod.mk.injEq] at h
          obtain ⟨hr1, hc1⟩ := h
          subst hr1
          subst hc1
          exact ⟨hr, cstrstr_from_le _ _ _ _ hc⟩
    · rw [if_neg hr] at h
      simp at h

theorem scan2_bound (b : Buffer) (q : List Char) (r c mr mc : Nat)
    (h : scan2 b q r c = some (mr, mc)) :
    mr < b.count ∧ mc ≤ (b.lines.getD mr []).length := by
  unfold scan2 scan_from at h
  cases h1 : scanRows b q r c b.count with
  | some p =>
    rw [h1] at h
    cases p with
    | mk a e =>
      simp only [Option.some.injEq, Prod.mk.injEq] at h
      obtain ⟨ha, he⟩ := h
      subst ha
      subst he
      exact scanRows_bound b q b.count r c a e h1
  | none =>
    rw [h1] at h
    exact scanRows_bound b q b.count 0 0 mr mc h

theorem StateWF_clearHl (st : EState) (h : StateWF st) : StateWF (clearHl st) := h

theorem StateWF_resetQuit (st : EState) (h : StateWF st) : StateWF (resetQuit st) := h

theorem StateWF_find_next (fc : Bool) (st : EState) (h : StateWF st) :
    StateWF (editor_find_next fc st).2 := by
  obtain ⟨⟨h1, h2, h3, h4⟩, hcy, hcx⟩ := h
  unfold editor_find_next
  by_cases hq : st.last_query = []
  · simpa [hq] using ⟨⟨h1, h2, h3, h4⟩, hcy, hcx⟩
  · simp only [hq, if_false]
    split
    · rename_i mr mc hs
      obtain ⟨hmr, hmc⟩ := scan2_bound _ _ _ _ _ _ hs
      refine ⟨⟨h1, h2, h3, h4⟩, hmr, ?_⟩
      show mc ≤ st.buf.len.getD mr 0
      rw [h4 mr hmr]
      exact hmc
    · exact ⟨⟨h1, h2, h3, h4⟩, hcy, hcx⟩

theorem StateWF_find (st : EState) (res : Option (List Char)) (h : StateWF st) :
    StateWF (editor_find st res) := by
  cases res with
  | none => exact StateWF_clearHl st h
  | some q =>
    have h1 : StateWF (editor_find_next true
        { st with
          last_query := q
          last_match_row := (st.view.cy : Int)
          last_match_col := (st.view.cx : Int) - 1 }).2 :=
      StateWF_find_next true _ h
    simp only [editor_find]
    split
    · exact h1
    · exact StateWF_clearHl _ h1

theorem StateWF_move_cursor (st : EState) (k : Int) (h : StateWF st) :
    StateWF (editor_move_cursor st k) := by
  obtain ⟨⟨h1, h2, h3, h4⟩, hcy, hcx⟩ := h
  have hwb : WFb st.buf := ⟨h1, h2, h3, h4⟩
  simp only [editor_move_cursor]
  by_cases hk4 : k = 1004
  · rw [if_pos hk4]
    by_cases hx : st.view.cx > 0
    · rw [if_pos hx]
      exact ⟨hwb, hcy, by show st.view.cx - 1 ≤ st.buf.len.getD st.view.cy 0; omega⟩
    · rw [if_neg hx]
      by_cases hy : st.view.cy > 0
      · rw [if_pos hy]
        exact ⟨hwb, by show st.view.cy - 1 < st.buf.count; omega, le_refl _⟩
      · rw [if_neg hy]
        exact ⟨hwb, hcy, hcx⟩
  · rw [if_neg hk4]
    by_cases hk3 : k = 1003
    · rw [if_pos hk3]
      by_cases hc : st.view.cy < st.buf.count
      · rw [if_pos hc]
        by_cases hxL : st.view.cx < st.buf.len.getD st.view.cy 0
        · rw [if_pos hxL]
          exact ⟨hwb, hcy, by show st.view.cx + 1 ≤ st.buf.len.getD st.view.cy 0; omega⟩
        · rw [if_neg hxL]
          by_cases hc1 : st.view.cy + 1 < st.buf.count
          · rw [if_pos hc1]
            exact ⟨hwb, hc1, Nat.zero_le _⟩
          · rw [if_neg hc1]
            exact ⟨hwb, hcy, hcx⟩
      · rw [if_neg hc]
        exact ⟨hwb, hcy, hcx⟩
    · rw [if_neg hk3]
      by_cases hk1 : k = 1001
      · rw [if_pos hk1]
        refine ⟨hwb, by show st.view.cy - 1 < st.buf.count; omega, ?_⟩
        show (if st.view.pref_cx ≤ st.buf.len.getD (st.view.cy - 1) 0 then st.view.pref_cx
          else st.buf.len.getD (st.view.cy - 1) 0) ≤ st.buf.len.getD (st.view.cy - 1) 0
        split_ifs <;> omega
      · rw [if_neg hk1]
        by_cases hk2 : k = 1002
        · rw [if_pos hk2]
          by_cases hc1 : st.view.cy + 1 < st.buf.count
          · rw [if_pos hc1]
            refine ⟨hwb, hc1, ?_⟩
            show (if st.view.pref_cx ≤ st.buf.len.getD (st.view.cy + 1) 0 then st.view.pref_cx
              else st.buf.len.getD (st.view.cy + 1) 0) ≤ st.buf.len.getD (st.view.cy + 1) 0
            split_ifs <;> omega
          · rw [if_neg hc1]
            have hwb' : WFb (buffer_append_empty st.buf) := WFb_append_empty st.buf hwb
            have hcnt : (buffer_append_empty st.buf).count = st.buf.count + 1 := by
              simp [buffer_append_empty, buffer_insert_line]
            refine ⟨hwb', ?_, ?_⟩
            · show st.view.cy + 1 < (buffer_append_empty st.buf).count
              omega
            · show (if st.view.pref_cx ≤ (buffer_append_empty st.buf).len.getD (st.view.cy + 1) 0
                then st.view.pref_cx
                else (buffer_append_empty st.buf).len.getD (st.view.cy + 1) 0) ≤
                (buffer_append_empty st.buf).len.getD (st.view.cy + 1) 0
              split_ifs <;> omega
        · rw [if_neg hk2]
          by_cases hk72 : k = 72
          · rw [if_pos hk72]
            exact ⟨hwb, hcy, Nat.zero_le _⟩
          · rw [if_neg hk72]
            by_cases hk69 : k = 69
            · rw [if_pos hk69]
              exact ⟨hwb, hcy, le_refl _⟩
            · rw [if_neg hk69]
              exact ⟨hwb, hcy, hcx⟩

theorem StateWF_move_cursor_vert (st : EState) (k : Int) (h : StateWF st) :
    StateWF (editor_move_cursor_vert st k) := by
  obtain ⟨⟨h1, h2, h3, h4⟩, hcy, hcx⟩ := h
  have hwb : WFb st.buf := ⟨h1, h2, h3, h4⟩
  simp only [editor_move_cursor_vert]
  set page0 := st.view.screenrows - 2 with hp0
  set page := if page0 < 1 then 1 else page0 with hp
  set cy := if k = 1005 then st.view.cy - page
    else if st.view.cy + page ≥ st.buf.count then st.buf.count - 1 else st.view.cy + page
    with hcydef
  refine ⟨hwb, ?_, ?_⟩
  · show cy < st.buf.count
    rw [hcydef]
    split_ifs <;> omega
  · show (if st.view.pref_cx ≤ st.buf.len.getD cy 0 then st.view.pref_cx
      else st.buf.len.getD cy 0) ≤ st.buf.len.getD cy 0
    split_ifs <;> omega

theorem StateWF_insert_char (st : EState) (c : Char) (h : StateWF st) :
    StateWF (editor_insert_char st c) := by
  obtain ⟨⟨h1, h2, h3, h4⟩, hcy, hcx⟩ := h
  have hwb : WFb st.buf := ⟨h1, h2, h3, h4⟩
  have hwb' := WFb_insert_char st.buf st.dirty hwb st.view.cy st.view.cx c hcy
  refine ⟨hwb', ?_, ?_⟩
  · show st.view.cy < (buffer_insert_char st.buf st.dirty st.view.cy st.view.cx c).1.count
    exact hcy
  · show st.view.cx + 1 ≤
      (buffer_insert_char st.buf st.dirty st.view.cy st.view.cx c).1.len.getD st.view.cy 0
    show st.view.cx + 1 ≤
      (st.buf.len.set st.view.cy (st.buf.len.getD st.view.cy 0 + 1)).getD st.view.cy 0
    rw [getD_set_self _ 0 st.buf.len st.view.cy (by omega)]
    omega

theorem StateWF_insert_newline (st : EState) (h : StateWF st) :
    StateWF (editor_insert_newline st) := by
  obtain ⟨⟨h1, h2, h3, h4⟩, hcy, hcx⟩ := h
  have hwb : WFb st.buf := ⟨h1, h2, h3, h4⟩
  have hwb' := WFb_split_line st.buf st.dirty hwb st.view.cy st.view.cx hcy
  have hcnt : (buffer_split_line st.buf st.dirty st.view.cy st.view.cx).1.count =
      st.buf.count + 1 := by
    have hgt : ¬ (st.view.cy + 1 > st.buf.count) := by omega
    simp [buffer_split_line, buffer_insert_line, hgt]
  refine ⟨hwb', ?_, Nat.zero_le _⟩
  show st.view.cy + 1 < (buffer_split_line st.buf st.dirty st.view.cy st.view.cx).1.count
  omega

theorem StateWF_backspace (st : EState) (h : StateWF st) :
    StateWF (editor_backspace st) := by
  obtain ⟨⟨h1, h2, h3, h4⟩, hcy, hcx⟩ := h
  have hwb : WFb st.buf := ⟨h1, h2, h3, h4⟩
  unfold editor_backspace
  by_cases hx : st.view.cx > 0
  · rw [if_pos hx]
    have hwb' := WFb_delete_char st.buf st.dirty hwb st.view.cy st.view.cx hcy
    have hcnt : (buffer_delete_char st.buf st.dirty st.view.cy st.view.cx).1.count =
        st.buf.count := by
      simp only [buffer_delete_char]
      split_ifs <;> rfl
    refine StateWF_clearHl _ ⟨hwb', ?_, ?_⟩
    · show st.view.cy < (buffer_delete_char st.buf st.dirty st.view.cy st.view.cx).1.count
      omega
    show st.view.cx - 1 ≤
      (buffer_delete_char st.buf st.dirty st.view.cy st.view.cx).1.len.getD st.view.cy 0
    simp only [buffer_delete_char]
    rw [if_neg (by omega)]
    show st.view.cx - 1 ≤
      (st.buf.len.set st.view.cy (st.buf.len.getD st.view.cy 0 - 1)).getD st.view.cy 0
    rw [getD_set_self _ 0 st.buf.len st.view.cy (by omega)]
    omega
  · rw [if_neg hx]
    by_cases hy : st.view.cy > 0
    · rw [if_pos hy]
      have hwb' := WFb_join_with_prev st.buf st.dirty hwb st.view.cy
      have hguard : ¬ (st.view.cy = 0 ∨ st.view.cy ≥ st.buf.count) := by omega
      have hcnt : (buffer_join_with_prev st.buf st.dirty st.view.cy).1.count =
          st.buf.count - 1 := by
        simp only [buffer_join_with_prev]
        rw [if_neg hguard]
      refine StateWF_clearHl _ ⟨hwb', ?_, ?_⟩
      · show st.view.cy - 1 < (buffer_join_with_prev st.buf st.dirty st.view.cy).1.count
        omega
      · show st.buf.len.getD (st.view.cy - 1) 0 ≤
          (buffer_join_with_prev st.buf st.dirty st.view.cy).1.len.getD (st.view.cy - 1) 0
        simp only [buffer_join_with_prev]
        rw [if_neg hguard]
        show st.buf.len.getD (st.view.cy - 1) 0 ≤
          (eraseAt st.view.cy (st.buf.len.set (st.view.cy - 1)
            (st.buf.len.getD (st.view.cy - 1) 0 + st.buf.len.getD st.view.cy 0))).getD
            (st.view.cy - 1) 0
        rw [getD_eraseAt_lt _ st.view.cy _ _ (by omega),
          getD_set_self _ 0 st.buf.len (st.view.cy - 1) (by omega)]
        omega
    · rw [if_neg hy]
      exact StateWF_clearHl _ ⟨hwb, hcy, hcx⟩

theorem StateWF_dispatch (env : Env) (st : EState) (c : Int) (h : StateWF st) :
    StateWF (dispatch env st c).1 := by
  by_cases h17 : c = 17
  · subst h17
    unfold dispatch
    by_cases hq : st.dirty = true ∧ 0 < st.quit_times_needed
    · rw [if_pos rfl, if_pos hq]
      exact h
    · rw [if_pos rfl, if_neg hq]
      exact h
  · by_cases h19 : c = 19
    · subst h19
      have hd : dispatch env st 19 =
          (resetQuit (if env.save_ok then { st with dirty := false } else st), false) := rfl
      rw [hd]
      by_cases hs : env.save_ok
      · rw [if_pos hs]
        exact StateWF_resetQuit _ h
      · rw [if_neg hs]
        exact StateWF_resetQuit _ h
    · by_cases h6 : c = 6
      · subst h6
        exact StateWF_resetQuit _ (StateWF_find st env.find_result h)
      · by_cases h14 : c = 14
        · subst h14
          exact StateWF_resetQuit _ (StateWF_find_next false st h)
        · by_cases hpg : c = 1005 ∨ c = 1006
          · have hd : dispatch env st c =
                (clearHl (resetQuit (editor_move_cursor_vert st c)), false) := by
              rcases hpg with h' | h' <;> subst h' <;> rfl
            rw [hd]
            exact StateWF_clearHl _ (StateWF_resetQuit _ (StateWF_move_cursor_vert st c h))
          · by_cases hmv : c = 1001 ∨ c = 1002 ∨ c = 1003 ∨ c = 1004 ∨ c = 72 ∨ c = 69
            · have hd : dispatch env st c =
                  (clearHl (resetQuit (editor_move_cursor st c)), false) := by
                rcases hmv with h' | h' | h' | h' | h' | h' <;> subst h' <;> rfl
              rw [hd]
              exact StateWF_clearHl _ (StateWF_resetQuit _ (StateWF_move_cursor st c h))
            · by_cases hent : c = 13 ∨ c = 10
              · have hd : dispatch env st c =
                    (resetQuit (editor_insert_newline st), false) := by
                  rcases hent with h' | h' <;> subst h' <;> rfl
                rw [hd]
                exact StateWF_resetQuit _ (StateWF_insert_newline st h)
              · by_cases h127 : c = 127
                · subst h127
                  exact StateWF_resetQuit _ (StateWF_backspace st h)
                · by_cases hpr : isprintI c = true
                  · have hd : dispatch env st c =
                        (resetQuit (editor_insert_char st (Char.ofNat c.toNat)), false) := by
                      simp [dispatch, h17, h19, h6, h14, hpg, hmv, hent, h127, hpr]
                    rw [hd]
                    exact StateWF_resetQuit _ (StateWF_insert_char st _ h)
                  · have hd : dispatch env st c = (st, false) := by
                      simp [dispatch, h17, h19, h6, h14, hpg, hmv, hent, h127, hpr]
                    rw [hd]
                    exact h

/-- Claim C3: for every well-formed editor state and every dispatched key
(cursor motion, paging, Home/End, insert, Enter, Backspace, search — and in
fact every key), after the operation completes the cursor satisfies
`0 <= cy < count` and `0 <= cx <= length(line cy)` (the lower bounds are
inherent in the `Nat` coordinates, which matches the C program: it never
stores a negative cursor coordinate). -/
theorem cursor_invariant_dispatch (env : Env) (st : EState) (c : Int) (h : StateWF st) :
    (dispatch env st c).1.view.cy < (dispatch env st c).1.buf.count ∧
    (dispatch env st c).1.view.cx ≤
      ((dispatch env st c).1.buf.lines.getD (dispatch env st c).1.view.cy []).length := by
  obtain ⟨⟨g1, g2, g3, g4⟩, gcy, gcx⟩ := StateWF_dispatch env st c h
  refine ⟨gcy, ?_⟩
  rw [← g4 _ gcy]
  exact gcx

/-! ### Split/join inversion (claim C7) -/

/-- Claim C7: for every well-formed buffer, every valid row `r` and every
column `c`, performing `splitLine(r, c)` immediately followed by
`joinWithPrevious(r + 1)` restores the buffer to its state before the split:
line `r` has its original content and length, and the line count and all
other lines are unchanged (the entire `Buffer` value is restored). -/
theorem split_join_inverse (b : Buffer) (d : Bool) (r c : Nat) (hb : WFb b)
    (hr : r < b.count) :
    (buffer_join_with_prev (buffer_split_line b d r c).1
      (buffer_split_line b d r c).2 (r + 1)).1 = b := by
  obtain ⟨h1, h2, h3, h4⟩ := hb
  have hL : b.len.getD r 0 = (b.lines.getD r []).length := h4 r hr
  set l := b.lines.getD r [] with hldef
  set L := b.len.getD r 0 with hLdef
  set c' := min c L with hcdef
  have hc'L : c' ≤ L := by omega
  set right := (l.drop c').take (L - c') with hrightdef
  have hrlen : right.length = L - c' := by
    rw [hrightdef]
    simp only [List.length_take, List.length_drop]
    omega
  have hgt : ¬ (r + 1 > b.count) := by omega
  have hsplit : (buffer_split_line b d r c).1 =
      ⟨(insertAt (r + 1) right b.lines).set r (l.take c'),
       (insertAt (r + 1) right.length b.len).set r c',
       b.count + 1⟩ := by
    simp only [buffer_split_line, buffer_insert_line]
    rw [if_neg hgt]
  have hsplit2 : (buffer_split_line b d r c).2 = true := rfl
  rw [hsplit, hsplit2]
  set LINES1 := (insertAt (r + 1) right b.lines).set r (l.take c') with hl1def
  set LEN1 := (insertAt (r + 1) right.length b.len).set r c' with hn1def
  have hlen1 : LINES1.length = b.count + 1 := by
    rw [hl1def, List.length_set, length_insertAt right (r + 1) b.lines (by omega)]
    omega
  have hlen1' : LEN1.length = b.count + 1 := by
    rw [hn1def, List.length_set, length_insertAt right.length (r + 1) b.len (by omega)]
    omega
  have hguard : ¬ (r + 1 = 0 ∨ r + 1 ≥
      (Buffer.mk LINES1 LEN1 (b.count + 1)).count) := by
    show ¬ (r + 1 = 0 ∨ r + 1 ≥ b.count + 1)
    omega
  have hLP : LEN1.getD r 0 = c' := by
    rw [hn1def, getD_set_self _ 0 _ r
      (by rw [length_insertAt right.length (r + 1) b.len (by omega)]; omega)]
  have hLC : LEN1.getD (r + 1) 0 = L - c' := by
    rw [hn1def, getD_set_ne _ 0 _ r (r + 1) (by omega),
      getD_insertAt_self right.length 0 (r + 1) b.len (by omega), hrlen]
  have hPREV : LINES1.getD r [] = l.take c' := by
    rw [hl1def, getD_set_self _ [] _ r
      (by rw [length_insertAt right (r + 1) b.lines (by omega)]; omega)]
  have hCUR : LINES1.getD (r + 1) [] = right := by
    rw [hl1def, getD_set_ne _ [] _ r (r + 1) (by omega),
      getD_insertAt_self right [] (r + 1) b.lines (by omega)]
  simp only [buffer_join_with_prev]
  rw [if_neg hguard]
  show Buffer.mk
      (eraseAt (r + 1) (LINES1.set r
        ((LINES1.getD r []).take (LEN1.getD r 0) ++
         (LINES1.getD (r + 1) []).take (LEN1.getD (r + 1) 0))))
      (eraseAt (r + 1) (LEN1.set r (LEN1.getD r 0 + LEN1.getD (r + 1) 0)))
      (b.count + 1 - 1) = b
  rw [hLP, hLC, hPREV, hCUR]
  have hjoin : (l.take c').take c' ++ right.take (L - c') = l := by
    rw [List.take_take, Nat.min_self, hrightdef,
      List.take_of_length_le (le_of_eq hrlen), hrightdef]
    have : (l.drop c').take (L - c') = l.drop c' := by
      apply List.take_of_length_le
      simp only [List.length_drop]
      omega
    rw [this, List.take_append_drop]
  rw [hjoin]
  have hcl : c' + (L - c') = L := by omega
  rw [hcl]
  have hlines : eraseAt (r + 1) (LINES1.set r l) = b.lines := by
    rw [hl1def, List.set_set]
    apply list_ext_getD []
    · rw [length_eraseAt (r + 1) _
        (by rw [List.length_set, length_insertAt right (r + 1) b.lines (by omega)]; omega),
        List.length_set, length_insertAt right (r + 1) b.lines (by omega)]
      omega
    · intro j hj
      rw [length_eraseAt (r + 1) _
        (by rw [List.length_set, length_insertAt right (r + 1) b.lines (by omega)]; omega),
        List.length_set, length_insertAt right (r + 1) b.lines (by omega)] at hj
      by_cases hjr : j ≤ r
      · rw [getD_eraseAt_lt _ (r + 1) _ j (by omega)]
        by_cases hje : j = r
        · rw [hje, getD_set_self _ [] _ r
            (by rw [length_insertAt right (r + 1) b.lines (by omega)]; omega)]
        · rw [getD_set_ne _ [] _ r j (by omega),
            getD_insertAt_lt right [] (r + 1) b.lines j (by omega) (by omega)]
      · have hjj : j + 1 - 1 = j := by omega
        rw [getD_eraseAt_ge _ (r + 1) _ j (by omega),
          getD_set_ne _ [] _ r (j + 1) (by omega),
          getD_insertAt_gt right [] (r + 1) b.lines (j + 1) (by omega), hjj]
  have hlens : eraseAt (r + 1) (LEN1.set r L) = b.len := by
    rw [hn1def, List.set_set]
    apply list_ext_getD 0
    · rw [length_eraseAt (r + 1) _
        (by rw [List.length_set, length_insertAt right.length (r + 1) b.len (by omega)]; omega),
        List.length_set, length_insertAt right.length (r + 1) b.len (by omega)]
      omega
    · intro j hj
      rw [length_eraseAt (r + 1) _
        (by rw [List.length_set, length_insertAt right.length (r + 1) b.len (by omega)]; omega),
        List.length_set, length_insertAt right.length (r + 1) b.len (by omega)] at hj
      by_cases hjr : j ≤ r
      · rw [getD_eraseAt_lt _ (r + 1) _ j (by omega)]
        by_cases hje : j = r
        · rw [hje, getD_set_self _ 0 _ r
            (by rw [length_insertAt right.length (r + 1) b.len (by omega)]; omega)]
        · rw [getD_set_ne _ 0 _ r j (by omega),
            getD_insertAt_lt right.length 0 (r + 1) b.len j (by omega) (by omega)]
      · have hjj : j + 1 - 1 = j := by omega
        rw [getD_eraseAt_ge _ (r + 1) _ j (by omega),
          getD_set_ne _ 0 _ r (j + 1) (by omega),
          getD_insertAt_gt right.length 0 (r + 1) b.len (j + 1) (by omega), hjj]
  rw [hlines, hlens]
  have hc2 : b.count + 1 - 1 = b.count := by omega
  rw [hc2]

/-! ### Search-miss framing (claim C8) -/

/-- Claim C8 counterexample: a confirmed (not cancelled) interactive search for
`"zq"` in the one-line document `"ab"` finds nothing and clears the previously
displayed highlight (`hl_len` drops from 1 to the cleared sentinel -1),
refuting "the highlight is cleared only when the caller explicitly cancels
the search prompt". -/
theorem search_clear_counterexample :
    (editor_find
      ⟨⟨[['a', 'b']], [2], 1⟩, ⟨0, 0, 0, 0, 22, 80, 0⟩, false, ['a'], 0, 0, 0, 0, 1, 1⟩
      (some ['z', 'q'])).hl_len = -1 ∧
    (editor_find
      ⟨⟨[['a', 'b']], [2], 1⟩, ⟨0, 0, 0, 0, 22, 80, 0⟩, false, ['a'], 0, 0, 0, 0, 1, 1⟩
      (some ['z', 'q'])).view =
      (⟨⟨[['a', 'b']], [2], 1⟩, ⟨0, 0, 0, 0, 22, 80, 0⟩, false, ['a'], 0, 0, 0, 0, 1, 1⟩ :
        EState).view ∧
    (⟨⟨[['a', 'b']], [2], 1⟩, ⟨0, 0, 0, 0, 22, 80, 0⟩, false, ['a'], 0, 0, 0, 0, 1, 1⟩ :
      EState).hl_len = 1 := by
  decide

/-- Claim C8 (amended): when a search finds no match after both passes, the
search engine `editor_find_next` leaves the whole editor state — cursor and
highlight included — exactly as it was.  The interactive `editor_find` leaves
the cursor untouched on a miss, but clears the highlight both when the prompt
is cancelled and when the confirmed query is not found (recording the query
and the search anchor in the latter case). -/
theorem search_miss_frame :
    (∀ (fc : Bool) (st : EState), (editor_find_next fc st).1 = false →
      (editor_find_next fc st).2 = st) ∧
    (∀ st : EState, editor_find st none = clearHl st) ∧
    (∀ (st : EState) (q : List Char),
      (editor_find_next true { st with
        last_query := q
        last_match_row := (st.view.cy : Int)
        last_match_col := (st.view.cx : Int) - 1 }).1 = false →
      editor_find st (some q) = clearHl { st with
        last_query := q
        last_match_row := (st.view.cy : Int)
        last_match_col := (st.view.cx : Int) - 1 }) := by
  have hfr : ∀ (fc : Bool) (st : EState), (editor_find_next fc st).1 = false →
      (editor_find_next fc st).2 = st := by
    intro fc st h
    unfold editor_find_next at h ⊢
    by_cases hq : st.last_query = []
    · simp [hq]
    · simp only [hq, if_false] at h ⊢
      split at h
      · simp at h
      · rename_i hs
        simp only [hs]
  refine ⟨hfr, fun st => rfl, ?_⟩
  intro st q h
  simp only [editor_find]
  rw [if_neg (by rw [h]; exact Bool.false_ne_true)]
  rw [hfr true _ h]

/-! ### Search wraparound (claim C6)

`occs b q` is the list of all match positions of `q` in the buffer in document
order (top to bottom, left to right within a line), built with the same
row-major recursion as the scan loop.  The lemmas below identify the scan
with the head of a filtered occurrence list, so that repeated find-next calls
walk down that list and wrap. -/

def posLEb (p u : Nat × Nat) : Bool :=
  decide (p.1 < u.1) || (decide (p.1 = u.1) && decide (p.2 ≤ u.2))

def posLTb (p u : Nat × Nat) : Bool :=
  decide (p.1 < u.1) || (decide (p.1 = u.1) && decide (p.2 < u.2))

def occsFromRows (b : Buffer) (q : List Char) : Nat → Nat → Nat → List (Nat × Nat)
  | _, _, 0 => []
  | r, c, fuel + 1 =>
    if r < b.count then
      ((lineOccs (b.lines.getD r []) q).filter (fun i => decide (c ≤ i))).map
        (fun i => (r, i)) ++ occsFromRows b q (r + 1) 0 fuel
    else []

def occs (b : Buffer) (q : List Char) : List (Nat × Nat) :=
  occsFromRows b q 0 0 b.count

theorem posLEb_iff (p u : Nat × Nat) :
    posLEb p u = true ↔ (p.1 < u.1 ∨ (p.1 = u.1 ∧ p.2 ≤ u.2)) := by
  simp [posLEb]

theorem posLTb_iff (p u : Nat × Nat) :
    posLTb p u = true ↔ (p.1 < u.1 ∨ (p.1 = u.1 ∧ p.2 < u.2)) := by
  simp [posLTb]

theorem posLTb_irrefl (p : Nat × Nat) : posLTb p p = false := by
  simp [posLTb]

theorem posLTb_asymm (p u : Nat × Nat) (h : posLTb p u = true) : posLTb u p = false := by
  rw [posLTb_iff] at h
  cases hb : posLTb u p with
  | false => rfl
  | true =>
    exfalso
    rw [posLTb_iff] at hb
    omega

theorem posLEb_trans_LT (a u v : Nat × Nat) (h1 : posLEb a u = true)
    (h2 : posLTb u v = true) : posLEb a v = true := by
  rw [posLEb_iff] at h1 ⊢
  rw [posLTb_iff] at h2
  omega

theorem posLEb_succ (r c : Nat) (u : Nat × Nat) :
    posLEb (r, c + 1) u = posLTb (r, c) u := by
  have hd : decide (c + 1 ≤ u.2) = decide (c < u.2) := by
    rw [decide_eq_decide]
    omega
  simp only [posLEb, posLTb]
  rw [hd]

theorem lineOccs_mem_lt (hay q : List Char) (hq : q ≠ []) (i : Nat)
    (h : i ∈ lineOccs hay q) : i < hay.length := by
  obtain ⟨hle, hpre⟩ := mem_lineOccs hay q i h
  rcases Nat.lt_or_ge i hay.length with h' | h'
  · exact h'
  · exfalso
    have hdrop : List.drop i hay = [] := List.drop_eq_nil_of_le (by omega)
    rw [hdrop] at hpre
    have := List.isPrefixOf_iff_prefix.mp hpre
    exact hq (List.prefix_nil.mp this)

theorem lineOccs_nil (q : List Char) (hq : q ≠ []) : lineOccs [] q = [] := by
  rw [List.eq_nil_iff_forall_not_mem]
  intro i hi
  have := lineOccs_mem_lt [] q hq i hi
  simp at this

theorem filter_map_comm (f : α → β) (p : β → Bool) : ∀ l : List α,
    (l.map f).filter p = (l.filter (fun x => p (f x))).map f
  | [] => rfl
  | a :: l => by
    simp only [List.map_cons, List.filter_cons]
    by_cases h : p (f a) <;> simp [h, filter_map_comm f p l]

/-- The clamp `c < len[r] ? c : len[r]` in the scan is invisible to the
occurrence list: all occurrences of a non-empty query sit strictly below the
line length. -/
theorem cstrstr_from_clamp (hay q : List Char) (c : Nat) (hq : q ≠ []) :
    cstrstr_from hay q (min c hay.length) =
      ((lineOccs hay q).filter (fun i => decide (c ≤ i))).head? := by
  unfold cstrstr_from
  rw [List.filter_congr ?_]
  intro i hi
  have := lineOccs_mem_lt hay q hq i hi
  rw [decide_eq_decide]
  omega

/-- The scan loop returns exactly the head of the occurrence list from the
start position. -/
theorem scanRows_eq_occs (b : Buffer) (q : List Char) (hb : WFb b) (hq : q ≠ []) :
    ∀ (fuel r c : Nat),
      scanRows b q r c fuel = (occsFromRows b q r c fuel).head?
  | 0, r, c => rfl
  | fuel + 1, r, c => by
    simp only [scanRows, occsFromRows]
    by_cases hr : r < b.count
    · rw [if_pos hr, if_pos hr]
      obtain ⟨h1, h2, h3, h4⟩ := hb
      have hL : b.len.getD r 0 = (b.lines.getD r []).length := h4 r hr
      by_cases hL0 : b.len.getD r 0 = 0
      · rw [if_pos hL0]
        have hnil : b.lines.getD r [] = [] := by
          rw [← List.length_eq_zero, ← hL, hL0]
        rw [hnil, lineOccs_nil q hq]
        simp only [List.filter_nil, List.map_nil, List.nil_append]
        exact scanRows_eq_occs b q ⟨h1, h2, h3, h4⟩ hq fuel (r + 1) 0
      · rw [if_neg hL0]
        have hclamp : cstrstr_from (b.lines.getD r []) q (min c (b.len.getD r 0)) =
            ((lineOccs (b.lines.getD r []) q).filter (fun i => decide (c ≤ i))).head? := by
          rw [hL]
          exact cstrstr_from_clamp (b.lines.getD r []) q c hq
        rw [hclamp]
        cases hh : ((lineOccs (b.lines.getD r []) q).filter (fun i => decide (c ≤ i))).head? with
        | some col =>
          obtain ⟨ys, hys⟩ := List.head?_eq_some_iff.mp hh
          rw [hys]
          simp
        | none =>
          rw [List.head?_eq_none_iff.mp hh]
          simp only [List.map_nil, List.nil_append]
          exact scanRows_eq_occs b q ⟨h1, h2, h3, h4⟩ hq fuel (r + 1) 0
    · rw [if_neg hr, if_neg hr]
      rfl

theorem occsFromRows_row_ge (b : Buffer) (q : List Char) : ∀ (fuel r c : Nat)
    (p : Nat × Nat), p ∈ occsFromRows b q r c fuel → r ≤ p.1
  | 0, r, c, p, h => by simp [occsFromRows] at h
  | fuel + 1, r, c, p, h => by
    simp only [occsFromRows] at h
    by_cases hr : r < b.count
    · rw [if_pos hr] at h
      rcases List.mem_append.mp h with h' | h'
      · obtain ⟨i, _, hip⟩ := List.mem_map.mp h'
        rw [← hip]
      · have := occsFromRows_row_ge b q fuel (r + 1) 0 p h'
        omega
    · rw [if_neg hr] at h
      simp at h

theorem occsFromRows_ge_count (b : Buffer) (q : List Char) (fuel r c : Nat)
    (h : b.count ≤ r) : occsFromRows b q r c fuel = [] := by
  cases fuel with
  | zero => rfl
  | succ fuel =>
    simp only [occsFromRows]
    rw [if_neg (by omega)]

theorem occsFromRows_fuel (b : Buffer) (q : List Char) : ∀ (k1 k2 r c : Nat),
    b.count ≤ r + k1 → b.count ≤ r + k2 →
    occsFromRows b q r c k1 = occsFromRows b q r c k2
  | 0, 0, r, c, _, _ => rfl
  | 0, k2 + 1, r, c, h1, _ => by
    rw [occsFromRows_ge_count b q (k2 + 1) r c (by omega)]
    rfl
  | k1 + 1, 0, r, c, _, h2 => by
    rw [occsFromRows_ge_count b q (k1 + 1) r c (by omega)]
    rfl
  | k1 + 1, k2 + 1, r, c, h1, h2 => by
    simp only [occsFromRows]
    by_cases hr : r < b.count
    · rw [if_pos hr, if_pos hr,
        occsFromRows_fuel b q k1 k2 (r + 1) 0 (by omega) (by omega)]
    · rw [if_neg hr, if_neg hr]

theorem posLEb_same_row (r c i : Nat) : posLEb (r, c) (r, i) = decide (c ≤ i) := by
  simp [posLEb]

theorem posLEb_lt_row (r c : Nat) (u : Nat × Nat) (h : r < u.1) : posLEb (r, c) u = true := by
  rw [posLEb_iff]
  omega

theorem occsFromRows_col_filter (b : Buffer) (q : List Char) (fuel r c : Nat) :
    occsFromRows b q r c fuel =
      (occsFromRows b q r 0 fuel).filter (fun x => posLEb (r, c) x) := by
  cases fuel with
  | zero => rfl
  | succ fuel =>
    simp only [occsFromRows]
    by_cases hr : r < b.count
    · rw [if_pos hr, if_pos hr, List.filter_append]
      have hrow : (((lineOccs (b.lines.getD r []) q).filter
            (fun i => decide (0 ≤ i))).map (fun i => (r, i))).filter
            (fun x => posLEb (r, c) x) =
          ((lineOccs (b.lines.getD r []) q).filter (fun i => decide (c ≤ i))).map
            (fun i => (r, i)) := by
        have h0 : (lineOccs (b.lines.getD r []) q).filter (fun i => decide (0 ≤ i)) =
            lineOccs (b.lines.getD r []) q :=
          List.filter_eq_self.mpr (fun a _ => by simp)
        rw [h0, filter_map_comm]
        congr 1
        apply List.filter_congr
        intro i _
        rw [posLEb_same_row]
      have htail : (occsFromRows b q (r + 1) 0 fuel).filter (fun x => posLEb (r, c) x) =
          occsFromRows b q (r + 1) 0 fuel := by
        apply List.filter_eq_self.mpr
        intro a ha
        exact posLEb_lt_row r c a (by
          have := occsFromRows_row_ge b q fuel (r + 1) 0 a ha
          omega)
      rw [hrow, htail]
    · rw [if_neg hr, if_neg hr, List.filter_nil]

theorem occs_row_filter (b : Buffer) (q : List Char) : ∀ r : Nat,
    (occs b q).filter (fun x => decide (r ≤ x.1)) = occsFromRows b q r 0 b.count
  | 0 => by
    rw [List.filter_eq_self.mpr (fun a _ => by simp)]
    rfl
  | r + 1 => by
    have ih := occs_row_filter b q r
    have hsub : (occs b q).filter (fun x => decide (r + 1 ≤ x.1)) =
        ((occs b q).filter (fun x => decide (r ≤ x.1))).filter
          (fun x => decide (r + 1 ≤ x.1)) := by
      rw [List.filter_filter]
      apply List.filter_congr
      intro x _
      by_cases h1 : r + 1 ≤ x.1
      · have h2 : r ≤ x.1 := by omega
        simp [h1, h2]
      · simp [h1]
    rw [hsub, ih]
    by_cases hr : r < b.count
    · obtain ⟨k, hk⟩ : ∃ k, b.count = k + 1 := ⟨b.count - 1, by omega⟩
      rw [hk]
      simp only [occsFromRows]
      rw [if_pos (by omega), List.filter_append]
      have hrow : (((lineOccs (b.lines.getD r []) q).filter
            (fun i => decide (0 ≤ i))).map (fun i => (r, i))).filter
            (fun x => decide (r + 1 ≤ x.1)) = [] := by
        rw [filter_map_comm]
        have : ((lineOccs (b.lines.getD r []) q).filter (fun i => decide (0 ≤ i))).filter
            (fun i => decide (r + 1 ≤ (r, i).1)) = [] := by
          apply List.eq_nil_iff_forall_not_mem.mpr
          intro i hi
          have := (List.mem_filter.mp hi).2
          simp at this
        rw [this, List.map_nil]
      have htail : (occsFromRows b q (r + 1) 0 k).filter
            (fun x => decide (r + 1 ≤ x.1)) = occsFromRows b q (r + 1) 0 k := by
        apply List.filter_eq_self.mpr
        intro a ha
        have := occsFromRows_row_ge b q k (r + 1) 0 a ha
        simp only [decide_eq_true_eq]
        omega
      rw [hrow, htail, List.nil_append]
      exact occsFromRows_fuel b q k (k + 1) (r + 1) 0 (by omega) (by omega)
    · rw [occsFromRows_ge_count b q b.count r 0 (by omega),
        occsFromRows_ge_count b q b.count (r + 1) 0 (by omega), List.filter_nil]

/-- The scan tail from any start position is the filtered occurrence list. -/
theorem occsFromRows_eq_filter (b : Buffer) (q : List Char) (r c : Nat) :
    occsFromRows b q r c b.count = (occs b q).filter (fun x => posLEb (r, c) x) := by
  rw [occsFromRows_col_filter b q b.count r c, ← occs_row_filter b q r,
    List.filter_filter]
  apply List.filter_congr
  intro x _
  by_cases h : posLEb (r, c) x = true
  · have : r ≤ x.1 := by
      rw [posLEb_iff] at h
      omega
    simp [h, this]
  · rw [Bool.not_eq_true] at h
    simp [h]

theorem occsFromRows_sorted (b : Buffer) (q : List Char) : ∀ (fuel r c : Nat),
    List.Pairwise (fun p u => posLTb p u = true) (occsFromRows b q r c fuel)
  | 0, r, c => List.Pairwise.nil
  | fuel + 1, r, c => by
    simp only [occsFromRows]
    by_cases hr : r < b.count
    · rw [if_pos hr]
      rw [List.pairwise_append]
      refine ⟨?_, occsFromRows_sorted b q fuel (r + 1) 0, ?_⟩
      · rw [List.pairwise_map]
        have hfil : List.Pairwise (· < ·)
            ((lineOccs (b.lines.getD r []) q).filter (fun i => decide (c ≤ i))) := by
          apply List.Pairwise.sublist (List.filter_sublist _)
          apply List.Pairwise.sublist (List.filter_sublist _)
          exact List.pairwise_lt_range _
        apply hfil.imp
        intro i j hij
        rw [posLTb_iff]
        omega
      · intro a ha u hu
        obtain ⟨i, _, hip⟩ := List.mem_map.mp ha
        have hrow := occsFromRows_row_ge b q fuel (r + 1) 0 u hu
        rw [← hip, posLTb_iff]
        omega
    · rw [if_neg hr]
      exact List.Pairwise.nil

theorem occs_sorted (b : Buffer) (q : List Char) :
    List.Pairwise (fun p u => posLTb p u = true) (occs b q) :=
  occsFromRows_sorted b q b.count 0 0

/-- In a strictly sorted list, filtering for "strictly after element `i`"
drops exactly the first `i + 1` elements. -/
theorem sorted_filter_drop : ∀ (L : List (Nat × Nat)),
    List.Pairwise (fun p u => posLTb p u = true) L →
    ∀ (i : Nat) (hi : i < L.length),
      L.filter (fun x => posLTb (L.get ⟨i, hi⟩) x) = L.drop (i + 1)
  | [], _, i, hi => by simp at hi
  | a :: t, hs, 0, hi => by
    have hhead := (List.pairwise_cons.mp hs).1
    simp only [List.get, List.filter_cons, posLTb_irrefl, List.drop_succ_cons,
      List.drop_zero]
    rw [if_neg (by simp), List.filter_eq_self.mpr hhead]
  | a :: t, hs, i + 1, hi => by
    obtain ⟨hhead, htail⟩ := List.pairwise_cons.mp hs
    have hmem : t.get ⟨i, by simpa using hi⟩ ∈ t := List.get_mem t i (by simpa using hi)
    have hat : posLTb a (t.get ⟨i, by simpa using hi⟩) = true := hhead _ hmem
    have hta : posLTb (t.get ⟨i, by simpa using hi⟩) a = false := posLTb_asymm _ _ hat
    simp only [List.get, List.filter_cons, List.drop_succ_cons]
    rw [hta]
    simp only [Bool.false_eq_true, if_false]
    exact sorted_filter_drop t htail i (by simpa using hi)

/-- The state update of a successful `editor_find_next` at match `(mr, mc)`. -/
def find_next_hit (st : EState) (mr mc : Nat) : EState :=
  { st with
    last_match_row := (mr : Int)
    last_match_col := (mc : Int)
    hl_row := (mr : Int)
    hl_col := (mc : Int)
    hl_len := (st.last_query.length : Int)
    view := { st.view with cy := mr, cx := mc, pref_cx := mc } }

theorem find_next_false_eq (st : EState) (hq : ¬(st.last_query = []))
    (rs cs : Nat) (hrow : st.last_match_row = (rs : Int))
    (hcol : st.last_match_col + 1 = (cs : Int)) :
    editor_find_next false st =
      match scan2 st.buf st.last_query rs cs with
      | some (mr, mc) => (true, find_next_hit st mr mc)
      | none => (false, st) := by
  have h1 : (if (false : Bool) then (st.view.cy : Int) else st.last_match_row).toNat = rs := by
    simp [hrow]
  have h2 : (if (false : Bool) then (st.view.cx : Int) else st.last_match_col + 1).toNat =
      cs := by
    simp [hcol]
  simp only [editor_find_next]
  rw [if_neg hq, h1, h2]
  rfl

theorem find_next_false_spec (b : Buffer) (q : List Char) (ps : List (Nat × Nat))
    (st : EState) (rs cs : Nat)
    (hb : WFb b) (hq : q ≠ []) (hocc : occs b q = ps)
    (hbuf : st.buf = b) (hquery : st.last_query = q)
    (hrow : st.last_match_row = (rs : Int)) (hcol : st.last_match_col + 1 = (cs : Int)) :
    editor_find_next false st =
      match (ps.filter (fun x => posLEb (rs, cs) x)).head? with
      | some p => (true, find_next_hit st p.1 p.2)
      | none =>
        match ps.head? with
        | some p => (true, find_next_hit st p.1 p.2)
        | none => (false, st) := by
  rw [find_next_false_eq st (by rw [hquery]; exact hq) rs cs hrow hcol]
  have hs1 : scan_from st.buf st.last_query rs cs =
      (ps.filter (fun x => posLEb (rs, cs) x)).head? := by
    unfold scan_from
    rw [hbuf, hquery, scanRows_eq_occs b q hb hq b.count rs cs,
      occsFromRows_eq_filter b q rs cs, hocc]
  have hs0 : scan_from st.buf st.last_query 0 0 = ps.head? := by
    unfold scan_from
    rw [hbuf, hquery, scanRows_eq_occs b q hb hq b.count 0 0]
    show (occs b q).head? = ps.head?
    rw [hocc]
  unfold scan2
  rw [hs1, hs0]
  cases hF : (ps.filter (fun x => posLEb (rs, cs) x)).head? with
  | some p =>
    cases p
    rfl
  | none =>
    cases hP : ps.head? with
    | some p =>
      cases p
      rfl
    | none => rfl

/-- Repeated Ctrl-N presses: `iterFindNext st n` is the state after `n`
consecutive `editor_find_next false` calls. -/
def iterFindNext (st : EState) : Nat → EState
  | 0 => st
  | n + 1 => (editor_find_next false (iterFindNext st n)).2

/-- The scan anchor after `i` successful find-next calls: the cursor for the
first call, one past the recorded match afterwards. -/
def searchAnchor (cy cx : Nat) (ps : List (Nat × Nat)) (i : Nat) : Nat × Nat :=
  if i = 0 then (cy, cx)
  else ((ps.getD (i - 1) (0, 0)).1, (ps.getD (i - 1) (0, 0)).2 + 1)

/-- Claim C6: for every well-formed document containing exactly `k ≥ 1`
occurrences of a non-empty query — `occs b q` lists the occurrence positions
in document order (top to bottom, left to right within a line) — and a search
state anchored at a cursor position at or before the first occurrence (as
`editor_find` sets it up: `last_match_row = cy`, `last_match_col = cx - 1`),
the sequence of repeated find-next calls succeeds `k` times, visiting the
`k` match positions in document order, and the `(k+1)`-th call wraps around
and returns the first match again. -/
theorem find_next_visits_all_matches (b : Buffer) (q : List Char) (ps : List (Nat × Nat))
    (st0 : EState) (k cy cx : Nat)
    (hb : WFb b) (hq : q ≠ []) (hocc : occs b q = ps) (hk : ps.length = k) (hk1 : 1 ≤ k)
    (hbuf : st0.buf = b) (hquery : st0.last_query = q)
    (hrow : st0.last_match_row = (cy : Int)) (hcol : st0.last_match_col = (cx : Int) - 1)
    (hstart : posLEb (cy, cx) (ps.getD 0 (0, 0)) = true) :
    (∀ i, i < k →
      (editor_find_next false (iterFindNext st0 i)).1 = true ∧
      (iterFindNext st0 (i + 1)).view.cy = (ps.getD i (0, 0)).1 ∧
      (iterFindNext st0 (i + 1)).view.cx = (ps.getD i (0, 0)).2) ∧
    (editor_find_next false (iterFindNext st0 k)).1 = true ∧
    (iterFindNext st0 (k + 1)).view.cy = (ps.getD 0 (0, 0)).1 ∧
    (iterFindNext st0 (k + 1)).view.cx = (ps.getD 0 (0, 0)).2 := by
  have hsorted : List.Pairwise (fun p u => posLTb p u = true) ps := by
    rw [← hocc]
    exact occs_sorted b q
  have hfil : ∀ i, i ≤ k →
      ps.filter (fun x => posLEb (searchAnchor cy cx ps i) x) = ps.drop i := by
    intro i hi
    cases i with
    | zero =>
      simp only [searchAnchor, if_pos rfl, List.drop_zero]
      apply List.filter_eq_self.mpr
      intro x hx
      obtain ⟨n, hn⟩ := List.mem_iff_get.mp hx
      have h0lt : 0 < ps.length := by omega
      have hget0 : ps.get ⟨0, h0lt⟩ = ps.getD 0 (0, 0) := by
        rw [List.get_eq_getElem, List.getD_eq_getElem ps (0, 0) h0lt]
      rcases Nat.eq_zero_or_pos n.val with hn0 | hnpos
      · have : n = ⟨0, h0lt⟩ := Fin.ext hn0
        rw [this, hget0] at hn
        rw [← hn]
        exact hstart
      · have hlt := List.pairwise_iff_get.mp hsorted ⟨0, h0lt⟩ n (by
          show (0 : Nat) < n.val
          omega)
        rw [hget0] at hlt
        rw [← hn]
        exact posLEb_trans_LT _ _ _ hstart hlt
    | succ j =>
      have hjk : j < k := by omega
      have hjlen : j < ps.length := by omega
      simp only [searchAnchor, Nat.succ_ne_zero, if_false, Nat.add_sub_cancel]
      have hsucc : (fun x => posLEb ((ps.getD j (0, 0)).1, (ps.getD j (0, 0)).2 + 1) x) =
          (fun x => posLTb (ps.get ⟨j, hjlen⟩) x) := by
        funext x
        rw [posLEb_succ]
        have : ((ps.getD j (0, 0)).1, (ps.getD j (0, 0)).2) = ps.get ⟨j, hjlen⟩ := by
          rw [List.getD_eq_getElem ps (0, 0) hjlen, List.get_eq_getElem]
        rw [this]
      rw [hsucc]
      exact sorted_filter_drop ps hsorted j hjlen
  have hmain : ∀ i, i ≤ k →
      (iterFindNext st0 i).buf = b ∧ (iterFindNext st0 i).last_query = q ∧
      (iterFindNext st0 i).last_match_row = ((searchAnchor cy cx ps i).1 : Int) ∧
      (iterFindNext st0 i).last_match_col + 1 = ((searchAnchor cy cx ps i).2 : Int) := by
    intro i
    induction i with
    | zero =>
      intro _
      refine ⟨hbuf, hquery, ?_, ?_⟩
      · show st0.last_match_row = (cy : Int)
        exact hrow
      · show st0.last_match_col + 1 = (cx : Int)
        rw [hcol]
        ring
    | succ j ih =>
      intro hj
      have hj' : j ≤ k := by omega
      have hjk : j < k := by omega
      obtain ⟨ib, iq, ir, ic⟩ := ih hj'
      have hspec := find_next_false_spec b q ps (iterFindNext st0 j)
        (searchAnchor cy cx ps j).1 (searchAnchor cy cx ps j).2
        hb hq hocc ib iq ir ic
      rw [hfil j hj'] at hspec
      have hdrop : (ps.drop j).head? = some (ps.getD j (0, 0)) := by
        rw [List.head?_drop, List.getElem?_eq_getElem (show j < ps.length by omega),
          List.getD_eq_getElem ps (0, 0) (show j < ps.length by omega)]
      rw [hdrop] at hspec
      have hit : iterFindNext st0 (j + 1) =
          find_next_hit (iterFindNext st0 j) (ps.getD j (0, 0)).1 (ps.getD j (0, 0)).2 := by
        show (editor_find_next false (iterFindNext st0 j)).2 = _
        rw [hspec]
      refine ⟨?_, ?_, ?_, ?_⟩
      · rw [hit]
        exact ib
      · rw [hit]
        exact iq
      · rw [hit]
        show ((ps.getD j (0, 0)).1 : Int) = ((searchAnchor cy cx ps (j + 1)).1 : Int)
        simp [searchAnchor]
      · rw [hit]
        show ((ps.getD j (0, 0)).2 : Int) + 1 = ((searchAnchor cy cx ps (j + 1)).2 : Int)
        simp only [searchAnchor, Nat.succ_ne_zero, if_false, Nat.add_sub_cancel]
        push_cast
        ring
  have hstep : ∀ i, i < k →
      editor_find_next false (iterFindNext st0 i) =
        (true, find_next_hit (iterFindNext st0 i) (ps.getD i (0, 0)).1
          (ps.getD i (0, 0)).2) := by
    intro i hik
    obtain ⟨ib, iq, ir, ic⟩ := hmain i (by omega)
    have hspec := find_next_false_spec b q ps (iterFindNext st0 i)
      (searchAnchor cy cx ps i).1 (searchAnchor cy cx ps i).2
      hb hq hocc ib iq ir ic
    rw [hfil i (by omega)] at hspec
    have hdrop : (ps.drop i).head? = some (ps.getD i (0, 0)) := by
      rw [List.head?_drop, List.getElem?_eq_getElem (show i < ps.length by omega),
        List.getD_eq_getElem ps (0, 0) (show i < ps.length by omega)]
    rw [hdrop] at hspec
    exact hspec
  refine ⟨?_, ?_, ?_, ?_⟩
  · intro i hik
    refine ⟨by rw [hstep i hik], ?_, ?_⟩
    · show (editor_find_next false (iterFindNext st0 i)).2.view.cy = _
      rw [hstep i hik]
      rfl
    · show (editor_find_next false (iterFindNext st0 i)).2.view.cx = _
      rw [hstep i hik]
      rfl
  all_goals {
    obtain ⟨ib, iq, ir, ic⟩ := hmain k (le_refl k)
    have hspec := find_next_false_spec b q ps (iterFindNext st0 k)
      (searchAnchor cy cx ps k).1 (searchAnchor cy cx ps k).2
      hb hq hocc ib iq ir ic
    rw [hfil k (le_refl k)] at hspec
    have hdk : ps.drop k = [] := by
      rw [← hk]
      exact List.drop_length ps
    rw [hdk] at hspec
    simp only [List.head?_nil] at hspec
    have hhd : ps.head? = some (ps.getD 0 (0, 0)) := by
      cases ps with
      | nil =>
        simp at hk
        omega
      | cons a t => rfl
    rw [hhd] at hspec
    first
      | (rw [hspec])
      | (show (editor_find_next false (iterFindNext st0 k)).2.view.cy = _
         rw [hspec]
         rfl)
      | (show (editor_find_next false (iterFindNext st0 k)).2.view.cx = _
         rw [hspec]
         rfl)
  }

/-! ### Concrete witnesses -/

def c1buf : Buffer := ⟨[['a']], [1], 1⟩

def c1fs : FileSys := ⟨some ['x'], none⟩

def c1env : SaveEnv := ⟨false, fun i => decide (i = 0), false, false, false⟩

theorem save_atomic_failure_frame_witness :
    c1fs.tmpfile = none ∧
    (editor_save_atomic c1buf true c1fs c1env).1 = false ∧
    (editor_save_atomic c1buf true c1fs c1env).2.2.target = some ['x'] ∧
    (editor_save_atomic c1buf true c1fs c1env).2.1 = true ∧
    (editor_save_atomic c1buf true c1fs c1env).2.2.tmpfile = none := by
  have h := save_atomic_failure_frame c1buf true c1fs c1env rfl
  exact ⟨rfl, rfl, (h.1 rfl).1, (h.1 rfl).2.1, (h.1 rfl).2.2⟩

theorem buffer_invariant_reachable_witness :
    1 ≤ (buffer_insert_char buffer_init false 0 0 'a').1.count ∧
    ∀ i, i < (buffer_insert_char buffer_init false 0 0 'a').1.count →
      (buffer_insert_char buffer_init false 0 0 'a').1.len.getD i 0 =
        ((buffer_insert_char buffer_init false 0 0 'a').1.lines.getD i []).length :=
  buffer_invariant_reachable _
    (ReachBuf.insert_char buffer_init false 0 0 'a' ReachBuf.init (by decide))

theorem cursor_invariant_dispatch_witness :
    StateWF initState ∧
    ((dispatch ⟨false, none⟩ initState 1002).1.view.cy <
        (dispatch ⟨false, none⟩ initState 1002).1.buf.count ∧
      (dispatch ⟨false, none⟩ initState 1002).1.view.cx ≤
        ((dispatch ⟨false, none⟩ initState 1002).1.buf.lines.getD
          (dispatch ⟨false, none⟩ initState 1002).1.view.cy []).length) :=
  ⟨by decide, cursor_invariant_dispatch ⟨false, none⟩ initState 1002 (by decide)⟩

def c4st : EState :=
  ⟨⟨[['a', 'b']], [2], 1⟩, ⟨1, 0, 0, 0, 22, 80, 1⟩, false, [], -1, -1, -1, -1, 0, 1⟩

theorem dirty_flag_behavior_witness :
    ((13 : Int) = 13 ∨ (13 : Int) = 10) ∧
    (dispatch ⟨false, none⟩ initState 13).1.dirty = true ∧
    (StateWF c4st ∧ (0 < c4st.view.cx ∨ 0 < c4st.view.cy)) ∧
    (dispatch ⟨false, none⟩ c4st 127).1.dirty = true :=
  ⟨Or.inl rfl,
   dirty_flag_behavior.2.1 ⟨false, none⟩ initState 13 (Or.inl rfl),
   ⟨by decide, Or.inl (by decide)⟩,
   dirty_flag_behavior.2.2.1 ⟨false, none⟩ c4st (by decide) (Or.inl (by decide))⟩

def c5st : EState :=
  ⟨⟨[['a']], [1], 1⟩, ⟨0, 0, 0, 0, 22, 80, 0⟩, true, [], -1, -1, -1, -1, 0, 1⟩

theorem quit_counter_behavior_witness :
    c5st.dirty = true ∧ 0 < c5st.quit_times_needed ∧
    dispatch ⟨false, none⟩ c5st 17 = ({ c5st with quit_times_needed := 0 }, false) ∧
    isActionKey 19 ∧
    (dispatch ⟨false, none⟩ c5st 19).1.quit_times_needed = 1 :=
  ⟨rfl, by decide,
   quit_counter_behavior.2.1 ⟨false, none⟩ c5st rfl (by decide),
   Or.inl rfl,
   quit_counter_behavior.2.2.2 ⟨false, none⟩ c5st 19 (Or.inl rfl)⟩

def c6b : Buffer := ⟨[['a', 'b'], ['x', 'a', 'b']], [2, 3], 2⟩

def c6st : EState :=
  ⟨c6b, ⟨0, 0, 0, 0, 22, 80, 0⟩, false, ['a', 'b'], 0, -1, -1, -1, 0, 1⟩

theorem find_next_visits_all_matches_witness :
    occs c6b ['a', 'b'] = [(0, 0), (1, 1)] ∧
    posLEb (0, 0) (([(0, 0), (1, 1)] : List (Nat × Nat)).getD 0 (0, 0)) = true ∧
    ((editor_find_next false (iterFindNext c6st 0)).1 = true ∧
      (iterFindNext c6st 1).view.cy = 0 ∧ (iterFindNext c6st 1).view.cx = 0) ∧
    ((editor_find_next false (iterFindNext c6st 1)).1 = true ∧
      (iterFindNext c6st 2).view.cy = 1 ∧ (iterFindNext c6st 2).view.cx = 1) ∧
    ((editor_find_next false (iterFindNext c6st 2)).1 = true ∧
      (iterFindNext c6st 3).view.cy = 0 ∧ (iterFindNext c6st 3).view.cx = 0) := by
  have h := find_next_visits_all_matches c6b ['a', 'b'] [(0, 0), (1, 1)] c6st 2 0 0
    (by decide) (by decide) (by decide) rfl (by decide) rfl rfl (by decide) (by decide)
    (by decide)
  exact ⟨by decide, by decide, h.1 0 (by decide), h.1 1 (by decide), h.2⟩

def c7b : Buffer := ⟨[['a', 'b', 'c'], ['d']], [3, 1], 2⟩

theorem split_join_inverse_witness :
    WFb c7b ∧ 0 < c7b.count ∧
    (buffer_join_with_prev (buffer_split_line c7b false 0 1).1
      (buffer_split_line c7b false 0 1).2 1).1 = c7b :=
  ⟨by decide, by decide, split_join_inverse c7b false 0 1 (by decide) (by decide)⟩

def c8st : EState :=
  ⟨⟨[['a', 'b']], [2], 1⟩, ⟨0, 0, 0, 0, 22, 80, 0⟩, false, ['a'], 0, 0, 0, 0, 1, 1⟩

theorem search_miss_frame_witness :
    (editor_find_next true { c8st with
      last_query := ['z', 'q']
      last_match_row := ((c8st.view.cy : Nat) : Int)
      last_match_col := ((c8st.view.cx : Nat) : Int) - 1 }).1 = false ∧
    editor_find c8st (some ['z', 'q']) = clearHl { c8st with
      last_query := ['z', 'q']
      last_match_row := ((c8st.view.cy : Nat) : Int)
      last_match_col := ((c8st.view.cx : Nat) : Int) - 1 } :=
  ⟨by decide, search_miss_frame.2.2 c8st ['z', 'q'] (by decide)⟩
